import Mathlib

/-!
Verification of the disaster-response routing core
(graph.h, algorithms.h, Allocation.h, Utils.h).

Modelling conventions for the shallow embedding:
* C++ `double` is modelled as `ℚ`; the algorithms only add, multiply and
  compare costs, so field arithmetic is exact.
* `numeric_limits<double>::max()` (the "unreached" sentinel stored in the
  distance maps) is modelled as `none : Option ℚ`; a stored finite distance
  `d` is `some d`.  Additions `MAX + c` never occur on executed paths
  because only finitely-relaxed nodes are ever popped; we define
  `none + c = none`.
* `std::unordered_map` is modelled as an association list in insertion
  order.  `operator[]` on a missing key inserts the default value
  (`0.0`, i.e. `some 0` for distances), exactly as in C++; iteration
  order of a hash map is implementation defined, and the association
  list order stands for one realizable iteration order (claims
  quantifying over all graphs quantify over all such orders).
* `std::priority_queue<pair<double,int>, …, greater<…>>` pops the
  lexicographically smallest `(distance, id)` pair; equal pairs are
  indistinguishable, so popping the first occurrence of the minimum is
  faithful.
* `std::sort` with a strict comparator is modelled as a stable insertion
  sort using the same comparator; the relative order of tied elements in
  C++ is unspecified, and any tie order is realizable in the model by
  choosing the underlying container order.
-/

namespace DisasterRelief

/-- `Node` from graph.h: a location with demand and priority. -/
structure Node where
  id : Int
  demand : Int
  priority : Int
  deriving DecidableEq, Repr

/-- `Edge` from graph.h: a road connection with cost and reliability. -/
structure Edge where
  u : Int
  v : Int
  cost : ℚ
  reliability : ℚ
  deriving DecidableEq, Repr

/-- `Graph` from graph.h: nodes and adjacency lists keyed by id, plus the
flat edge list.  Association lists model the `unordered_map`s. -/
structure Graph where
  nodes : List (Int × Node)
  adj : List (Int × List (Int × Edge))
  edges : List Edge
  deriving DecidableEq, Repr

def emptyGraph : Graph := ⟨[], [], []⟩

/-- `unordered_map` insert-or-assign used by `nodes[node.id] = node`. -/
def assocSet {β : Type} : List (Int × β) → Int → β → List (Int × β)
  | [], k, b => [(k, b)]
  | (k', b') :: rest, k, b =>
      if k' = k then (k', b) :: rest else (k', b') :: assocSet rest k b

/-- `adjacencyList[k].push_back x` (`operator[]` creates the entry). -/
def adjAppend : List (Int × List (Int × Edge)) → Int → (Int × Edge) →
    List (Int × List (Int × Edge))
  | [], k, x => [(k, [x])]
  | (k', l) :: rest, k, x =>
      if k' = k then (k', l ++ [x]) :: rest else (k', l) :: adjAppend rest k x

/-- The `adjacencyList.find == end` guard in `Graph::addNode` that creates
an empty adjacency entry for a fresh node id. -/
def adjEnsure (al : List (Int × List (Int × Edge))) (k : Int) :
    List (Int × List (Int × Edge)) :=
  match al.lookup k with
  | some _ => al
  | none => al ++ [(k, [])]

/-- `Graph::addNode`. -/
def Graph.addNode (g : Graph) (n : Node) : Graph :=
  { nodes := assocSet g.nodes n.id n
    adj := adjEnsure g.adj n.id
    edges := g.edges }

/-- `Graph::addEdge` (undirected: indexed under both endpoints). -/
def Graph.addEdge (g : Graph) (e : Edge) : Graph :=
  { nodes := g.nodes
    adj := adjAppend (adjAppend g.adj e.u (e.v, e)) e.v (e.u, e)
    edges := g.edges ++ [e] }

/-- `Graph::getNeighbors` (missing key yields the empty list). -/
def Graph.getNeighbors (g : Graph) (nodeId : Int) : List (Int × Edge) :=
  (g.adj.lookup nodeId).getD []

/-- `Graph::getNode`. -/
def Graph.getNode (g : Graph) (nodeId : Int) : Option Node :=
  g.nodes.lookup nodeId

/-- `Graph::getAllNodeIds`. -/
def Graph.getAllNodeIds (g : Graph) : List Int :=
  g.nodes.map Prod.fst

/-- `Graph::getEdgeCost`: first matching neighbor entry, `-1` if absent. -/
def Graph.getEdgeCost (g : Graph) (u v : Int) : ℚ :=
  match (g.getNeighbors u).find? (fun p => p.1 == v) with
  | some p => p.2.cost
  | none => -1

/-- `Graph::getEdgeReliability`: first matching entry, `0` if absent. -/
def Graph.getEdgeReliability (g : Graph) (u v : Int) : ℚ :=
  match (g.getNeighbors u).find? (fun p => p.1 == v) with
  | some p => p.2.reliability
  | none => 0

/-- `RouteCost` from Utils.h. -/
structure RouteCost where
  totalTime : ℚ
  reliabilityPenalty : ℚ
  idleTime : ℚ
  finalScore : ℚ
  deriving DecidableEq, Repr

/-- Cost-function weights from Utils.h. -/
def ALPHA : ℚ := 6 / 10

def BETA : ℚ := 3 / 10

def GAMMA : ℚ := 1 / 10

/-- The consecutive pairs `(route[i], route[i+1])` of a route. -/
def routePairs : List Int → List (Int × Int)
  | [] => []
  | [_] => []
  | u :: v :: rest => (u, v) :: routePairs (v :: rest)

/-- The loop body of `calculateRouteCost`: accumulate time and the
reliability product over the consecutive pairs. -/
def routeAccum (g : Graph) : List (Int × Int) → ℚ × ℚ
  | [] => (0, 1)
  | (u, v) :: rest =>
      let (t, r) := routeAccum g rest
      let c := g.getEdgeCost u v
      if 0 ≤ c then (c + t, g.getEdgeReliability u v * r) else (t, r)

/-- `calculateRouteCost` from Utils.h. -/
def calculateRouteCost (g : Graph) (route : List Int)
    (vehicleCapacity vehicleLoad : Int) : RouteCost :=
  if route.length < 2 then ⟨0, 0, 0, 0⟩
  else
    let (t, r) := routeAccum g (routePairs route)
    let penalty := 1 - r
    let idle : ℚ := ((vehicleCapacity - vehicleLoad : Int) : ℚ)
    ⟨t, penalty, idle, ALPHA * t + BETA * penalty + GAMMA * idle⟩

/-- Spec-side total time: sum of edge costs over the consecutive pairs
whose lookup is non-negative (i.e. not the missing-edge sentinel). -/
def specTotalTime (g : Graph) (route : List Int) : ℚ :=
  (((routePairs route).filter (fun p => decide (0 ≤ g.getEdgeCost p.1 p.2))).map
    (fun p => g.getEdgeCost p.1 p.2)).sum

/-- Spec-side reliability product over the same traversed pairs. -/
def specRelProd (g : Graph) (route : List Int) : ℚ :=
  (((routePairs route).filter (fun p => decide (0 ≤ g.getEdgeCost p.1 p.2))).map
    (fun p => g.getEdgeReliability p.1 p.2)).prod

theorem routeAccum_eq_spec (g : Graph) (ps : List (Int × Int)) :
    routeAccum g ps =
      (((ps.filter (fun p => decide (0 ≤ g.getEdgeCost p.1 p.2))).map
          (fun p => g.getEdgeCost p.1 p.2)).sum,
        ((ps.filter (fun p => decide (0 ≤ g.getEdgeCost p.1 p.2))).map
          (fun p => g.getEdgeReliability p.1 p.2)).prod) := by
  induction ps with
  | nil => simp [routeAccum]
  | cons hd tl ih =>
      obtain ⟨u, v⟩ := hd
      by_cases h : 0 ≤ g.getEdgeCost u v
      · simp [routeAccum, ih, h]
      · simp [routeAccum, ih, h]

/-- C7: for every graph, route, capacity and load, `calculateRouteCost`
returns `totalTime` = the sum of edge costs over consecutive pairs with
non-negative lookup (missing-edge sentinel pairs skipped),
`reliabilityPenalty` = 1 minus the product of the reliabilities over
exactly those pairs (so a route with no direct edges yields penalty 0),
`idleTime` = capacity − load, and
`finalScore` = 0.6·totalTime + 0.3·reliabilityPenalty + 0.1·idleTime;
and routes of fewer than 2 nodes yield all four fields 0. -/
theorem calculateRouteCost_spec (g : Graph) (route : List Int)
    (cap load : Int) :
    (2 ≤ route.length →
      calculateRouteCost g route cap load =
        ⟨specTotalTime g route, 1 - specRelProd g route,
          ((cap - load : Int) : ℚ),
          ALPHA * specTotalTime g route +
            BETA * (1 - specRelProd g route) +
            GAMMA * ((cap - load : Int) : ℚ)⟩) ∧
    (route.length < 2 → calculateRouteCost g route cap load = ⟨0, 0, 0, 0⟩) := by
  constructor
  · intro h
    have h2 : ¬ route.length < 2 := by omega
    simp [calculateRouteCost, h2, routeAccum_eq_spec, specTotalTime, specRelProd]
  · intro h
    simp [calculateRouteCost, h]

/-- Concrete witness graph: depot 0, node 1, one road of cost 2 and
reliability 1/2. -/
def gW : Graph :=
  (emptyGraph.addNode ⟨0, 0, 0⟩ |>.addNode ⟨1, 3, 1⟩).addEdge ⟨0, 1, 2, 1/2⟩

theorem calculateRouteCost_spec_witness :
    calculateRouteCost gW [0, 1] 5 3 =
        ⟨specTotalTime gW [0, 1], 1 - specRelProd gW [0, 1], ((2 : Int) : ℚ),
          ALPHA * specTotalTime gW [0, 1] + BETA * (1 - specRelProd gW [0, 1]) +
            GAMMA * ((2 : Int) : ℚ)⟩ ∧
      calculateRouteCost gW [0] 5 3 = ⟨0, 0, 0, 0⟩ :=
  ⟨(calculateRouteCost_spec gW [0, 1] 5 3).1 (by decide),
    (calculateRouteCost_spec gW [0] 5 3).2 (by decide)⟩

/-! ### 2-opt route optimisation (algorithms.h, `twoOpt`) -/

/-- Plain total edge-cost sum of a route (no validity check). -/
def sumEdgeCosts (g : Graph) (route : List Int) : ℚ :=
  ((routePairs route).map (fun p => g.getEdgeCost p.1 p.2)).sum

/-- The full-route cost computation inside `twoOpt`: walk the consecutive
pairs, fail (`none`) as soon as a lookup is negative, else sum. -/
def pairsCostValid (g : Graph) : List (Int × Int) → Option ℚ
  | [] => some 0
  | (u, v) :: rest =>
      let c := g.getEdgeCost u v
      if c < 0 then none else (pairsCostValid g rest).map (fun t => c + t)

/-- Total route cost as computed by `twoOpt`, `none` when some consecutive
pair has a negative lookup (missing edge). -/
def routeCostOpt (g : Graph) (route : List Int) : Option ℚ :=
  pairsCostValid g (routePairs route)

theorem pairsCostValid_some {g : Graph} {ps : List (Int × Int)} {q : ℚ}
    (h : pairsCostValid g ps = some q) :
    q = (ps.map (fun p => g.getEdgeCost p.1 p.2)).sum := by
  induction ps generalizing q with
  | nil => simp [pairsCostValid] at h; simp [h.symm]
  | cons hd tl ih =>
      obtain ⟨u, v⟩ := hd
      by_cases hc : g.getEdgeCost u v < 0
      · simp [pairsCostValid, hc] at h
      · simp [pairsCostValid, hc] at h
        obtain ⟨t, ht, hq⟩ := h
        simp [← hq, ih ht]

theorem routeCostOpt_some {g : Graph} {r : List Int} {q : ℚ}
    (h : routeCostOpt g r = some q) : q = sumEdgeCosts g r :=
  pairsCostValid_some h

/-- `reverse(newRoute.begin() + i, newRoute.begin() + j + 1)`:
reverse the inclusive segment `[i, j]` of the route. -/
def segReverse (r : List Int) (i j : Nat) : List Int :=
  r.take i ++ ((r.drop i).take (j + 1 - i)).reverse ++ r.drop (j + 1)

/-- The `(i, j)` cut points scanned by `twoOpt`, in loop order:
`i` from `1` while `i < n - 2`, `j` from `i + 1` while `j < n - 1`. -/
def twoOptPairs (n : Nat) : List (Nat × Nat) :=
  (List.range' 1 (n - 3)).flatMap
    (fun i => (List.range' (i + 1) (n - 2 - i)).map (fun j => (i, j)))

/-- The scan over cut-point pairs: accept the first segment reversal that
is valid and strictly cheaper than the current cost `c`. -/
def tryPairs (g : Graph) (r : List Int) (c : ℚ) :
    List (Nat × Nat) → Option (List Int)
  | [] => none
  | (i, j) :: rest =>
      let nr := segReverse r i j
      match routeCostOpt g nr with
      | some c2 => if c2 < c then some nr else tryPairs g r c rest
      | none => tryPairs g r c rest

/-- One full scan of the doubly-nested `twoOpt` loop: `none` when no
improving reversal exists (including when the current route's own cost is
not computable, which makes every pair `continue`). -/
def twoOptPass (g : Graph) (r : List Int) : Option (List Int) :=
  match routeCostOpt g r with
  | none => none
  | some c => tryPairs g r c (twoOptPairs r.length)

/-- Option-valued strict cost comparison (`none` compares as incomparable,
mirroring "invalid routes are never selected"). -/
def ltCost : Option ℚ → Option ℚ → Bool
  | some a, some b => decide (a < b)
  | _, _ => false

/-- Termination measure: the number of permutations of the current route
that have strictly smaller (valid) cost. -/
def twoOptMeasure (g : Graph) (r : List Int) : Nat :=
  (r.permutations.filter
    (fun x => ltCost (routeCostOpt g x) (routeCostOpt g r))).length

theorem mem_twoOptPairs {n i j : Nat} (h : (i, j) ∈ twoOptPairs n) :
    1 ≤ i ∧ i < j ∧ j + 1 < n := by
  simp only [twoOptPairs, List.mem_flatMap, List.mem_map] at h
  obtain ⟨i', hi, j', hj, hij⟩ := h
  rw [Prod.mk.injEq] at hij
  obtain ⟨h1, h2⟩ := hij
  subst h1; subst h2
  rw [List.mem_range'_1] at hi hj
  omega

theorem segReverse_perm (r : List Int) (i j : Nat) (hij : i ≤ j + 1) :
    (segReverse r i j).Perm r := by
  have h1 : (r.drop i).drop (j + 1 - i) = r.drop (j + 1) := by
    rw [List.drop_drop]
    congr 1
    omega
  have key : r.take i ++ ((r.drop i).take (j + 1 - i) ++ (r.drop i).drop (j + 1 - i)) = r := by
    rw [List.take_append_drop, List.take_append_drop]
  rw [segReverse, ← h1, List.append_assoc]
  conv_rhs => rw [← key]
  exact List.Perm.append_left _ ((List.reverse_perm _).append_right _)

theorem head?_take {r : List Int} {i : Nat} (hi : 1 ≤ i) :
    (r.take i).head? = r.head? := by
  cases r <;> cases i <;> simp_all

theorem getLast?_drop {r : List Int} {k : Nat} (hk : k < r.length) :
    (r.drop k).getLast? = r.getLast? := by
  induction r generalizing k with
  | nil => simp at hk
  | cons a l ih =>
      cases k with
      | zero => simp
      | succ m =>
          simp only [List.drop_succ_cons]
          rw [ih (by simpa using Nat.lt_of_succ_lt_succ hk)]
          rcases l with _ | ⟨b, l2⟩
          · simp at hk
          · simp [List.getLast?_cons_cons]

theorem segReverse_head? (r : List Int) (i j : Nat) (hi : 1 ≤ i) :
    (segReverse r i j).head? = r.head? := by
  rw [segReverse]
  cases r with
  | nil => simp
  | cons a l =>
      cases i with
      | zero => omega
      | succ k => simp [List.take_succ_cons]

theorem segReverse_getLast? (r : List Int) (i j : Nat) (hj : j + 1 < r.length) :
    (segReverse r i j).getLast? = r.getLast? := by
  rw [segReverse]
  have hne : r.drop (j + 1) ≠ [] := by
    intro h
    have := congrArg List.length h
    simp at this
    omega
  rw [List.getLast?_append_of_ne_nil _ hne, getLast?_drop hj]

/-- Everything the improvement-acceptance branch gives us about the result
of a successful `tryPairs` call. -/
theorem tryPairs_some {g : Graph} {r : List Int} {c : ℚ}
    {ps : List (Nat × Nat)} {r2 : List Int}
    (h : tryPairs g r c ps = some r2) :
    ∃ i j, (i, j) ∈ ps ∧ r2 = segReverse r i j ∧
      ∃ c2, routeCostOpt g r2 = some c2 ∧ c2 < c := by
  induction ps with
  | nil => simp [tryPairs] at h
  | cons hd tl ih =>
      obtain ⟨i, j⟩ := hd
      simp only [tryPairs] at h
      rcases hc : routeCostOpt g (segReverse r i j) with _ | c2
      · rw [hc] at h
        obtain ⟨i', j', hm, hr, hcost⟩ := ih h
        exact ⟨i', j', List.mem_cons_of_mem _ hm, hr, hcost⟩
      · rw [hc] at h
        by_cases hlt : c2 < c
        · simp only [if_pos hlt] at h
          obtain rfl : segReverse r i j = r2 := Option.some.inj h
          exact ⟨i, j, List.mem_cons_self _ _, rfl, c2, hc, hlt⟩
        · simp only [if_neg hlt] at h
          obtain ⟨i', j', hm, hr, hcost⟩ := ih h
          exact ⟨i', j', List.mem_cons_of_mem _ hm, hr, hcost⟩

/-- A successful pass returns a strictly cheaper valid permutation with the
same endpoints and length. -/
theorem twoOptPass_some {g : Graph} {r r2 : List Int}
    (h : twoOptPass g r = some r2) :
    r2.Perm r ∧ r2.head? = r.head? ∧ r2.getLast? = r.getLast? ∧
      ∃ c c2, routeCostOpt g r = some c ∧ routeCostOpt g r2 = some c2 ∧
        c2 < c := by
  rw [twoOptPass] at h
  rcases hc : routeCostOpt g r with _ | c
  · rw [hc] at h; simp at h
  · rw [hc] at h
    obtain ⟨i, j, hm, hr, c2, hc2, hlt⟩ := tryPairs_some h
    obtain ⟨h1, hij, hjn⟩ := mem_twoOptPairs hm
    subst hr
    exact ⟨segReverse_perm r i j (by omega), segReverse_head? r i j h1,
      segReverse_getLast? r i j hjn, c, c2, rfl, hc2, hlt⟩

theorem countP_le_of_imp {P Q : List Int → Bool} {l : List (List Int)}
    (himp : ∀ x ∈ l, Q x = true → P x = true) :
    l.countP Q ≤ l.countP P := by
  induction l with
  | nil => simp
  | cons hd tl ih =>
      have h2 := ih (fun x hx => himp x (List.mem_cons_of_mem _ hx))
      rw [List.countP_cons, List.countP_cons]
      rcases hq : Q hd with _ | _
      · rw [if_neg Bool.false_ne_true]
        rcases hp : P hd with _ | _
        · rw [if_neg Bool.false_ne_true]; omega
        · rw [if_pos rfl]; omega
      · rw [himp hd (List.mem_cons_self _ _) hq]
        omega

theorem filter_length_lt {P Q : List Int → Bool} {l : List (List Int)}
    {a : List Int} (ha : a ∈ l) (hPa : P a = true) (hQa : Q a = false)
    (himp : ∀ x ∈ l, Q x = true → P x = true) :
    (l.filter Q).length < (l.filter P).length := by
  rw [← List.countP_eq_length_filter, ← List.countP_eq_length_filter]
  induction l with
  | nil => simp at ha
  | cons hd tl ih =>
      rw [List.countP_cons, List.countP_cons]
      rcases List.mem_cons.mp ha with h | h
      · subst h
        have hsub : tl.countP Q ≤ tl.countP P :=
          countP_le_of_imp (fun x hx => himp x (List.mem_cons_of_mem _ hx))
        rw [hPa, hQa, if_neg Bool.false_ne_true, if_pos rfl]
        omega
      · have himp2 : ∀ x ∈ tl, Q x = true → P x = true :=
          fun x hx => himp x (List.mem_cons_of_mem _ hx)
        have hlt := ih h himp2
        rcases hq : Q hd with _ | _ <;> rcases hp : P hd with _ | _ <;> simp <;>
          first
          | omega
          | exact absurd (himp hd (List.mem_cons_self _ _) hq) (by simp [hp])

/-- Each accepted reversal strictly shrinks the termination measure. -/
theorem twoOptPass_measure_lt {g : Graph} {r r2 : List Int}
    (h : twoOptPass g r = some r2) :
    twoOptMeasure g r2 < twoOptMeasure g r := by
  obtain ⟨hperm, _, _, c, c2, hc, hc2, hlt⟩ := twoOptPass_some h
  rw [twoOptMeasure, twoOptMeasure, hc, hc2]
  have hpl : (r2.permutations.filter (fun x => ltCost (routeCostOpt g x) (some c2))).length
      = (r.permutations.filter (fun x => ltCost (routeCostOpt g x) (some c2))).length :=
    (hperm.permutations.filter _).length_eq
  rw [hpl]
  apply filter_length_lt (a := r2)
  · exact List.mem_permutations.mpr hperm
  · rw [hc2]; simp [ltCost, hlt]
  · rw [hc2]; simp [ltCost]
  · intro x _ hq
    rcases hx : routeCostOpt g x with _ | cx
    · rw [hx] at hq; simp [ltCost] at hq
    · rw [hx] at hq
      simp [ltCost] at hq ⊢
      exact hq.trans hlt

/-- The outer `while (improved)` loop of `twoOpt`. -/
def twoOptLoop (g : Graph) (r : List Int) : List Int :=
  match h : twoOptPass g r with
  | none => r
  | some r2 => twoOptLoop g r2
termination_by twoOptMeasure g r
decreasing_by exact twoOptPass_measure_lt h

/-- `twoOpt` from algorithms.h. -/
def twoOpt (g : Graph) (route : List Int) : List Int :=
  if route.length ≤ 3 then route else twoOptLoop g route

/-- Fuel-indexed iteration of the improvement step (used to state
termination: the loop reaches a fixpoint within finitely many steps). -/
def twoOptN (g : Graph) : Nat → List Int → List Int
  | 0, r => r
  | n + 1, r =>
      match twoOptPass g r with
      | none => r
      | some r2 => twoOptN g n r2

theorem twoOptLoop_invariant (g : Graph) :
    ∀ n r, twoOptMeasure g r ≤ n →
      (twoOptLoop g r).Perm r ∧ (twoOptLoop g r).head? = r.head? ∧
        (twoOptLoop g r).getLast? = r.getLast? ∧
        sumEdgeCosts g (twoOptLoop g r) ≤ sumEdgeCosts g r ∧
        twoOptPass g (twoOptLoop g r) = none ∧
        ∃ k ≤ n, twoOptN g k r = twoOptLoop g r := by
  intro n
  induction n with
  | zero =>
      intro r hr
      rcases hp : twoOptPass g r with _ | r2
      · rw [twoOptLoop, hp]
        exact ⟨List.Perm.refl r, rfl, rfl, le_refl _, hp, 0, le_refl 0, rfl⟩
      · exact absurd (twoOptPass_measure_lt hp) (by omega)
  | succ n ih =>
      intro r hr
      rcases hp : twoOptPass g r with _ | r2
      · rw [twoOptLoop, hp]
        exact ⟨List.Perm.refl r, rfl, rfl, le_refl _, hp, 0, Nat.zero_le _, rfl⟩
      · have hlt := twoOptPass_measure_lt hp
        have hrec := ih r2 (by omega)
        obtain ⟨hperm2, hh2, hl2, hcost2, hfix2, k, hk, hiter⟩ := hrec
        obtain ⟨hperm1, hh1, hl1, c, c2, hc, hc2, hclt⟩ := twoOptPass_some hp
        have hloop : twoOptLoop g r = twoOptLoop g r2 := by
          rw [twoOptLoop, hp]
        rw [hloop]
        refine ⟨hperm2.trans hperm1, hh2.trans hh1, hl2.trans hl1, ?_, hfix2,
          k + 1, by omega, ?_⟩
        · calc sumEdgeCosts g (twoOptLoop g r2) ≤ sumEdgeCosts g r2 := hcost2
            _ = c2 := (routeCostOpt_some hc2).symm
            _ ≤ c := le_of_lt hclt
            _ = sumEdgeCosts g r := routeCostOpt_some hc
        · simp only [twoOptN, hp]
          exact hiter

/-- C1: `twoOpt` returns a permutation of the input route with the same
first and last elements, never increases the total edge-cost sum (hence in
particular whenever the input cost is computable), and returns routes of
length ≤ 3 unchanged. -/
theorem twoOpt_spec (g : Graph) (route : List Int) :
    (twoOpt g route).Perm route ∧
      (twoOpt g route).head? = route.head? ∧
      (twoOpt g route).getLast? = route.getLast? ∧
      sumEdgeCosts g (twoOpt g route) ≤ sumEdgeCosts g route ∧
      (route.length ≤ 3 → twoOpt g route = route) := by
  by_cases h3 : route.length ≤ 3
  · simp [twoOpt, h3]
  · have h := twoOptLoop_invariant g (twoOptMeasure g route) route (le_refl _)
    obtain ⟨hperm, hh, hl, hcost, _, _⟩ := h
    simp only [twoOpt, if_neg h3]
    exact ⟨hperm, hh, hl, hcost, fun hc => absurd hc h3⟩

theorem twoOpt_spec_witness :
    (twoOpt gW [0, 1, 0]).Perm [0, 1, 0] ∧ twoOpt gW [0, 1, 0] = [0, 1, 0] :=
  ⟨(twoOpt_spec gW [0, 1, 0]).1, (twoOpt_spec gW [0, 1, 0]).2.2.2.2 (by decide)⟩

/-- C9: `twoOpt` terminates: every accepted reversal strictly decreases the
route's cost, and the permutations of a finite route are finite, so the
outer loop reaches (within at most as many accepted moves as the route has
permutations) a route on which a full scan finds no improving reversal. -/
theorem twoOpt_terminates (g : Graph) (route : List Int) :
    ∃ n ≤ route.permutations.length,
      twoOptN g n route = twoOpt g route ∧
        twoOptPass g (twoOpt g route) = none := by
  have hm : twoOptMeasure g route ≤ route.permutations.length :=
    List.length_filter_le _ _
  by_cases h3 : route.length ≤ 3
  · refine ⟨0, Nat.zero_le _, by simp [twoOptN, twoOpt, h3], ?_⟩
    simp only [twoOpt, if_pos h3]
    rw [twoOptPass]
    rcases hc : routeCostOpt g route with _ | c
    · rfl
    · have : route.length - 3 = 0 := by omega
      simp [twoOptPairs, this, tryPairs]
  · have h := twoOptLoop_invariant g (twoOptMeasure g route) route (le_refl _)
    obtain ⟨_, _, _, _, hfix, k, hk, hiter⟩ := h
    simp only [twoOpt, if_neg h3]
    exact ⟨k, le_trans hk hm, hiter, hfix⟩

/-! ### Graph construction and edge-lookup symmetry (graph.h) -/

/-- A graph-building step: `addNode` or `addEdge` from graph.h. -/
inductive BuildOp where
  | addN (n : Node)
  | addE (e : Edge)

/-- Apply one building step. -/
def applyOp (g : Graph) : BuildOp → Graph
  | BuildOp.addN n => g.addNode n
  | BuildOp.addE e => g.addEdge e

/-- The graph produced by a sequence of `addNode`/`addEdge` calls. -/
def buildGraph (ops : List BuildOp) : Graph :=
  ops.foldl applyOp emptyGraph

/-- The edges stored under `u` whose indexed endpoint is `v`, in list
order; `getEdgeCost`/`getEdgeReliability` read the head of this list. -/
def edgesBetween (g : Graph) (u v : Int) : List Edge :=
  ((g.getNeighbors u).filter (fun p => p.1 == v)).map Prod.snd

theorem find?_eq_head_filter {α : Type} (p : α → Bool) (l : List α) :
    List.find? p l = (l.filter p).head? := by
  induction l with
  | nil => rfl
  | cons a t ih =>
      rcases h : p a with _ | _
      · rw [List.find?_cons_of_neg _ (by simp [h]),
          List.filter_cons_of_neg (by simp [h]), ih]
      · rw [List.find?_cons_of_pos _ h, List.filter_cons_of_pos h,
          List.head?_cons]

theorem getEdgeCost_eq_edgesBetween (g : Graph) (u v : Int) :
    g.getEdgeCost u v =
      match (edgesBetween g u v).head? with
      | some e => e.cost
      | none => -1 := by
  rw [Graph.getEdgeCost, find?_eq_head_filter, edgesBetween, List.head?_map]
  rcases hh : ((g.getNeighbors u).filter (fun p => p.1 == v)).head? with _ | p <;>
    rw [hh] <;> rfl

theorem getEdgeReliability_eq_edgesBetween (g : Graph) (u v : Int) :
    g.getEdgeReliability u v =
      match (edgesBetween g u v).head? with
      | some e => e.reliability
      | none => 0 := by
  rw [Graph.getEdgeReliability, find?_eq_head_filter, edgesBetween, List.head?_map]
  rcases hh : ((g.getNeighbors u).filter (fun p => p.1 == v)).head? with _ | p <;>
    rw [hh] <;> rfl

theorem lookup_cons {β : Type} (x k : Int) (b : β) (rest : List (Int × β)) :
    List.lookup x ((k, b) :: rest) = if x = k then some b else List.lookup x rest := by
  by_cases h : x = k
  · simp [List.lookup, h]
  · have hb : (x == k) = false := by simp [h]
    simp [List.lookup, hb, h]

theorem lookup_append {β : Type} (x : Int) (l1 l2 : List (Int × β)) :
    List.lookup x (l1 ++ l2) =
      match List.lookup x l1 with
      | some b => some b
      | none => List.lookup x l2 := by
  induction l1 with
  | nil => simp [List.lookup]
  | cons hd tl ih =>
      obtain ⟨k, b⟩ := hd
      by_cases h : x = k
      · simp [lookup_cons, h]
      · simp only [List.cons_append, lookup_cons, if_neg h, ih]

theorem getNeighbors_addNode (g : Graph) (n : Node) (x : Int) :
    (g.addNode n).getNeighbors x = g.getNeighbors x := by
  rw [Graph.addNode, Graph.getNeighbors, Graph.getNeighbors]
  simp only [adjEnsure]
  rcases h : g.adj.lookup n.id with _ | l
  · rw [lookup_append]
    rcases h2 : g.adj.lookup x with _ | l2
    · by_cases hx : x = n.id
      · subst hx
        simp [lookup_cons]
      · have hb : (x == n.id) = false := by simp [hx]
        simp [lookup_cons, hx, List.lookup, hb]
    · rfl
  · rfl

theorem getNeighbors_adjAppend (al : List (Int × List (Int × Edge)))
    (k : Int) (x : Int × Edge) (y : Int) :
    ((adjAppend al k x).lookup y).getD [] =
      if y = k then (al.lookup y).getD [] ++ [x] else (al.lookup y).getD [] := by
  induction al with
  | nil =>
      by_cases h : y = k
      · subst h; simp [adjAppend, lookup_cons, List.lookup]
      · have hb : (y == k) = false := by simp [h]
        simp [adjAppend, lookup_cons, h, List.lookup, hb]
  | cons hd tl ih =>
      obtain ⟨k2, l⟩ := hd
      by_cases hk : k2 = k
      · subst hk
        simp only [adjAppend, if_pos rfl]
        by_cases hy : y = k2
        · subst hy; simp [lookup_cons]
        · simp [lookup_cons, hy]
      · simp only [adjAppend, if_neg hk]
        by_cases hy : y = k2
        · subst hy
          simp [lookup_cons, hk]
        · simp only [lookup_cons, if_neg hy]
          exact ih

theorem getNeighbors_addEdge (g : Graph) (e : Edge) (y : Int) :
    (g.addEdge e).getNeighbors y =
      (if y = e.u then g.getNeighbors y ++ [(e.v, e)] else g.getNeighbors y) ++
        (if y = e.v then [(e.u, e)] else []) := by
  rw [Graph.addEdge, Graph.getNeighbors]
  simp only []
  rw [getNeighbors_adjAppend, getNeighbors_adjAppend]
  by_cases h1 : y = e.v <;> by_cases h2 : y = e.u <;>
    simp_all [Graph.getNeighbors]

theorem edgesBetween_addEdge (g : Graph) (e : Edge) (u v : Int) :
    edgesBetween (g.addEdge e) u v =
      edgesBetween g u v ++
        (if u = e.u ∧ v = e.v then [e] else []) ++
        (if u = e.v ∧ v = e.u then [e] else []) := by
  rw [edgesBetween, getNeighbors_addEdge]
  by_cases h1 : u = e.u <;> by_cases h2 : u = e.v <;>
    by_cases h3 : v = e.v <;> by_cases h4 : v = e.u <;>
      simp_all [edgesBetween, List.filter_append] <;> omega

/-- The symmetry invariant maintained by the two builders. -/
def SymBetween (g : Graph) : Prop :=
  ∀ u v : Int, edgesBetween g u v = edgesBetween g v u

theorem symBetween_empty : SymBetween emptyGraph := by
  intro u v
  rfl

theorem symBetween_addNode {g : Graph} (h : SymBetween g) (n : Node) :
    SymBetween (g.addNode n) := by
  intro u v
  rw [edgesBetween, edgesBetween, getNeighbors_addNode, getNeighbors_addNode]
  exact h u v

theorem symBetween_addEdge {g : Graph} (h : SymBetween g) (e : Edge) :
    SymBetween (g.addEdge e) := by
  intro u v
  rw [edgesBetween_addEdge, edgesBetween_addEdge, h u v]
  by_cases h1 : u = e.u <;> by_cases h2 : u = e.v <;>
    by_cases h3 : v = e.v <;> by_cases h4 : v = e.u <;>
      simp_all <;> omega

theorem symBetween_buildGraph (ops : List BuildOp) :
    SymBetween (buildGraph ops) := by
  rw [buildGraph]
  have : ∀ g : Graph, SymBetween g → SymBetween (ops.foldl applyOp g) := by
    induction ops with
    | nil => exact fun g h => h
    | cons op rest ih =>
        intro g h
        rcases op with n | e
        · exact ih _ (symBetween_addNode h n)
        · exact ih _ (symBetween_addEdge h e)
  exact this emptyGraph symBetween_empty

/-- C10: for every graph built by a sequence of `addNode`/`addEdge` calls,
edge-cost and edge-reliability lookups are symmetric in their endpoints,
including the sentinel case and graphs with parallel edges: each `addEdge`
appends the same edge under both endpoints in the same relative order, so
the first match seen from either side is the same edge. -/
theorem built_graph_edge_lookup_symm (ops : List BuildOp) (u v : Int) :
    (buildGraph ops).getEdgeCost u v = (buildGraph ops).getEdgeCost v u ∧
      (buildGraph ops).getEdgeReliability u v =
        (buildGraph ops).getEdgeReliability v u := by
  have h := symBetween_buildGraph ops u v
  constructor
  · rw [getEdgeCost_eq_edgesBetween, getEdgeCost_eq_edgesBetween, h]
  · rw [getEdgeReliability_eq_edgesBetween, getEdgeReliability_eq_edgesBetween, h]

/-! ### Dijkstra (algorithms.h) -/

/-- A stored distance: `some d` is a finite double, `none` is the
`numeric_limits<double>::max()` sentinel. -/
abbrev EDist := Option ℚ

/-- `a < b` on stored distances (`none` stands for DBL_MAX, larger than
every finite value the program computes). -/
def eLt : EDist → EDist → Bool
  | some a, some b => decide (a < b)
  | some _, none => true
  | none, _ => false

/-- Dijkstra loop state: distance map (with explicit key set), visited map
(reads of absent keys default to `false`; such insertions are not
observable) and the priority-queue contents. -/
structure DState where
  dist : List (Int × EDist)
  visited : Int → Bool
  pq : List (ℚ × Int)

/-- `distMap[k]` as an rvalue: `operator[]` inserts a default-constructed
`0.0` when the key is missing, and that insertion is observable in the
returned map. -/
def dmGetD (m : List (Int × EDist)) (k : Int) : List (Int × EDist) × EDist :=
  match m.lookup k with
  | some d => (m, d)
  | none => (m ++ [(k, some 0)], some 0)

/-- Relaxation of one adjacency entry of the popped node `u`:
`if (!visited[v] && distMap[u] + edgeCost < distMap[v]) { … }`.
`distMap[u]` is finite whenever this runs from `dijkstra` (only
finitely-relaxed ids are ever pushed), so the `none` fallback branch is
dead code kept for totality. -/
def relaxOne (g : Graph) (u : Int) (st : DState) (nb : Int × Edge) : DState :=
  if st.visited nb.1 then st
  else
    let p1 := dmGetD st.dist u
    let p2 := dmGetD p1.1 nb.1
    match p1.2 with
    | none => { st with dist := p2.1 }
    | some du =>
        if eLt (some (du + nb.2.cost)) p2.2 then
          { dist := assocSet p2.1 nb.1 (some (du + nb.2.cost))
            visited := st.visited
            pq := st.pq ++ [(du + nb.2.cost, nb.1)] }
        else { st with dist := p2.1 }

/-- Strict lexicographic order on `(distance, id)` pairs: the order in
which `priority_queue<…, greater<…>>` pops. -/
def pairLt (a b : ℚ × Int) : Bool :=
  decide (a.1 < b.1) || (decide (a.1 = b.1) && decide (a.2 < b.2))

/-- Minimum element of `x :: l` under `pairLt` (first occurrence wins,
which is indifferent because tied pairs are equal). -/
def pqMinFrom (x : ℚ × Int) : List (ℚ × Int) → ℚ × Int
  | [] => x
  | y :: rest => if pairLt y x then pqMinFrom y rest else pqMinFrom x rest

/-- Remove the first occurrence of `x`. -/
def removeFirst (x : ℚ × Int) : List (ℚ × Int) → List (ℚ × Int)
  | [] => []
  | y :: rest => if y = x then rest else y :: removeFirst x rest

/-- `pq.top(); pq.pop()`: pop the lexicographically smallest pair. -/
def popMin (pq : List (ℚ × Int)) : Option ((ℚ × Int) × List (ℚ × Int)) :=
  match pq with
  | [] => none
  | y :: rest =>
      let m := pqMinFrom y rest
      some (m, removeFirst m (y :: rest))

/-- The `while (!pq.empty())` loop of `dijkstra`, with enough fuel to run
to completion (see `dijkstraFuel`). -/
def dijkstraLoop (g : Graph) : Nat → DState → DState
  | 0, st => st
  | fuel + 1, st =>
      match popMin st.pq with
      | none => st
      | some ((_, u), rest) =>
          if st.visited u then dijkstraLoop g fuel { st with pq := rest }
          else
            let st1 : DState :=
              { dist := st.dist
                visited := fun x => if x = u then true else st.visited x
                pq := rest }
            dijkstraLoop g fuel ((g.getNeighbors u).foldl (relaxOne g u) st1)

/-- Every id that can ever be pushed: the source and the targets of all
adjacency entries. -/
def dijkstraIds (g : Graph) (s : Int) : List Int :=
  (s :: g.adj.flatMap (fun kl => kl.2.map Prod.fst)).dedup

/-- The degree bound used for the fuel computation. -/
def degOf (g : Graph) (u : Int) : Nat :=
  (g.getNeighbors u).length

/-- An upper bound on the number of loop iterations: one initial push plus
one push per adjacency entry of each poppable id. -/
def dijkstraFuel (g : Graph) (s : Int) : Nat :=
  1 + ((dijkstraIds g s).map (degOf g)).sum

/-- `dijkstra` from algorithms.h: initialise every node id to the MAX
sentinel, the source to `0`, then run the loop. -/
def dijkstra (g : Graph) (source : Int) : List (Int × EDist) :=
  (dijkstraLoop g (dijkstraFuel g source)
    { dist := assocSet (g.getAllNodeIds.map (fun nodeId => (nodeId, (none : EDist))))
        source (some 0)
      visited := fun _ => false
      pq := [(0, source)] }).dist

/-! ### A* (algorithms.h) -/

/-- The heuristic `abs(v - target)` as a rational. -/
def heurA (target v : Int) : ℚ :=
  ((|v - target| : Int) : ℚ)

/-- A* loop state.  The `fScore` map is only ever read at the entry just
assigned (`fScore[v] = gScore[v] + h(v)` immediately before the push), so
pushes carry that value directly and the map itself is elided. -/
structure AState where
  gScore : List (Int × EDist)
  cameFrom : List (Int × Int)
  visited : Int → Bool
  pq : List (ℚ × Int)

/-- One neighbor relaxation of A*: note there is no `!visited[v]` guard in
the source, so closed nodes can still have `gScore`/`cameFrom` updated
(but are never re-expanded). -/
def astarRelax (g : Graph) (target current : Int) (st : AState)
    (nb : Int × Edge) : AState :=
  let p1 := dmGetD st.gScore current
  match p1.2 with
  | none => { st with gScore := p1.1 }
  | some gc =>
      let tent := gc + nb.2.cost
      let p2 := dmGetD p1.1 nb.1
      if eLt (some tent) p2.2 then
        { gScore := assocSet p2.1 nb.1 (some tent)
          cameFrom := assocSet st.cameFrom nb.1 current
          visited := st.visited
          pq := st.pq ++ [(tent + heurA target nb.1, nb.1)] }
      else { st with gScore := p2.1 }

/-- The path-reconstruction loop
`while (node != -1) { path.push_back(node); node = cameFrom[node] or -1 }`,
with enough fuel for any acyclic predecessor chain. -/
def reconstructFrom (cameFrom : List (Int × Int)) : Nat → Int → List Int
  | 0, _ => []
  | fuel + 1, node =>
      if node = -1 then []
      else
        node ::
          reconstructFrom cameFrom fuel
            (match cameFrom.lookup node with
             | some p => p
             | none => -1)

/-- The main A* loop. -/
def astarLoop (g : Graph) (target : Int) : Nat → AState → List Int
  | 0, _ => []
  | fuel + 1, st =>
      match popMin st.pq with
      | none => []
      | some ((_, current), rest) =>
          if st.visited current then
            astarLoop g target fuel { st with pq := rest }
          else
            let st1 : AState :=
              { st with
                visited := fun x => if x = current then true else st.visited x
                pq := rest }
            if current = target then
              (reconstructFrom st1.cameFrom (st1.cameFrom.length + 2) target).reverse
            else
              astarLoop g target fuel
                ((g.getNeighbors current).foldl (astarRelax g target current) st1)

/-- `astar` from algorithms.h. -/
def astar (g : Graph) (source target : Int) : List Int :=
  astarLoop g target (dijkstraFuel g source)
    { gScore := assocSet (g.getAllNodeIds.map (fun nodeId => (nodeId, (none : EDist))))
        source (some 0)
      cameFrom := []
      visited := fun _ => false
      pq := [(heurA target source, source)] }

/-! ### Vehicles and allocation (Allocation.h) -/

/-- `Vehicle` from Allocation.h. -/
structure Vehicle where
  id : Int
  capacity : Int
  currentLoad : Int
  route : List Int
  deriving DecidableEq, Repr

/-- The two-argument constructor: load 0, route starting at the depot. -/
def mkVehicle (id capacity : Int) : Vehicle :=
  ⟨id, capacity, 0, [0]⟩

/-- `Vehicle::canServe`. -/
def Vehicle.canServe (v : Vehicle) (demand : Int) : Bool :=
  decide (v.currentLoad + demand ≤ v.capacity)

/-- `Vehicle::addNode`. -/
def Vehicle.addNode (v : Vehicle) (nodeId demand : Int) : Vehicle :=
  { v with route := v.route ++ [nodeId], currentLoad := v.currentLoad + demand }

/-- `Vehicle::finalizeRoute`. -/
def Vehicle.finalizeRoute (v : Vehicle) : Vehicle :=
  { v with route := v.route ++ [0] }

/-- The collection loop of `allocateVehicles`: non-depot ids whose node
exists and has positive demand, in id-iteration order. -/
def nodesToAssign (g : Graph) : List Int :=
  g.getAllNodeIds.filter (fun nodeId =>
    nodeId != 0 &&
      match g.getNode nodeId with
      | some n => decide (0 < n.demand)
      | none => false)

/-- The sort comparator of `allocateVehicles`: strictly greater priority
(with the null-node guard returning `false`). -/
def priorityGt (g : Graph) (a b : Int) : Bool :=
  match g.getNode a, g.getNode b with
  | some na, some nb => decide (nb.priority < na.priority)
  | _, _ => false

/-- Stable insertion step for the model of `std::sort` (ties and
incomparable elements keep their container order). -/
def sortInsert (g : Graph) (a : Int) : List Int → List Int
  | [] => [a]
  | b :: rest =>
      if priorityGt g b a then b :: sortInsert g a rest else a :: b :: rest

/-- Model of `sort(nodesToAssign.begin(), …, cmp)`: a stable sort with the
source comparator.  (`std::sort` leaves the relative order of tied
elements unspecified; any tie order is realizable in the model by choosing
the container order.) -/
def sortByPriority (g : Graph) : List Int → List Int
  | [] => []
  | a :: rest => sortInsert g a (sortByPriority g rest)

/-- `vehicle.route.back()` (routes are nonempty in all reachable states). -/
def lastNodeOf (v : Vehicle) : Int :=
  v.route.getLast?.getD 0

/-- The shortest-path distance lookup in the vehicle loop:
`distances.find(nodeId)`, keeping MAX when the key is absent or holds the
sentinel. -/
def distOf (g : Graph) (v : Vehicle) (nodeId : Int) : EDist :=
  match (dijkstra g (lastNodeOf v)).lookup nodeId with
  | some d => d
  | none => none

/-- The inner vehicle loop of `allocateVehicles`, carrying
`(bestVehicle, minExtraCost)`; `none` is `-1` / MAX respectively. -/
def selectLoop (g : Graph) (demand nodeId : Int) :
    List Vehicle → Nat → Option Nat × EDist → Option Nat × EDist
  | [], _, acc => acc
  | v :: rest, i, (best, minE) =>
      if v.canServe demand then
        let extra := distOf g v nodeId
        if eLt extra minE && extra.isSome then
          selectLoop g demand nodeId rest (i + 1) (some i, extra)
        else
          selectLoop g demand nodeId rest (i + 1) (best, minE)
      else
        selectLoop g demand nodeId rest (i + 1) (best, minE)

/-- The chosen vehicle index for one location, if any. -/
def selectBest (g : Graph) (vs : List Vehicle) (demand nodeId : Int) :
    Option Nat :=
  (selectLoop g demand nodeId vs 0 (none, none)).1

/-- In-place update of one list element (`assignedVehicles[bestVehicle]`). -/
def listModify {α : Type} : List α → Nat → (α → α) → List α
  | [], _, _ => []
  | x :: xs, 0, f => f x :: xs
  | x :: xs, n + 1, f => x :: listModify xs n f

/-- One iteration of the assignment loop of `allocateVehicles`. -/
def assignStep (g : Graph) (vs : List Vehicle) (nodeId : Int) : List Vehicle :=
  match g.getNode nodeId with
  | none => vs
  | some node =>
      match selectBest g vs node.demand nodeId with
      | none => vs
      | some i => listModify vs i (fun v => v.addNode nodeId node.demand)

/-- `allocateVehicles` from Allocation.h. -/
def allocateVehicles (g : Graph) (vehicles : List Vehicle) : List Vehicle :=
  (((sortByPriority g (nodesToAssign g)).foldl (assignStep g) vehicles).map
    Vehicle.finalizeRoute)

/-! ### C6: the processing order of `allocateVehicles` -/

/-- Priority of a node id (0 for an absent node). -/
def priorityOf (g : Graph) (nodeId : Int) : Int :=
  match g.getNode nodeId with
  | some n => n.priority
  | none => 0

theorem sortInsert_perm (g : Graph) (a : Int) (l : List Int) :
    (sortInsert g a l).Perm (a :: l) := by
  induction l with
  | nil => simp [sortInsert]
  | cons b rest ih =>
      rw [sortInsert]
      by_cases h : priorityGt g b a = true
      · rw [if_pos h]
        exact (ih.cons b).trans (List.Perm.swap a b rest)
      · rw [if_neg h]

theorem sortByPriority_perm (g : Graph) (l : List Int) :
    (sortByPriority g l).Perm l := by
  induction l with
  | nil => simp [sortByPriority]
  | cons a rest ih =>
      exact (sortInsert_perm g a (sortByPriority g rest)).trans (ih.cons a)

theorem priorityGt_asymm {g : Graph} {a b : Int}
    (h : priorityGt g a b = true) : priorityGt g b a = false := by
  rw [priorityGt] at h ⊢
  rcases ha : g.getNode a with _ | na <;> rcases hb : g.getNode b with _ | nb <;>
    rw [ha, hb] at h <;> simp_all
  omega

theorem priorityGt_negtrans {g : Graph} {a b z : Int}
    (hb : (g.getNode b).isSome)
    (h1 : priorityGt g b a = false) (h2 : priorityGt g z b = false) :
    priorityGt g z a = false := by
  rw [priorityGt] at h1 h2 ⊢
  rcases ha : g.getNode a with _ | na <;> rcases hbe : g.getNode b with _ | nb <;>
    rcases hz : g.getNode z with _ | nz <;>
    rw [ha, hbe] at h1 <;> rw [hz] at h2 <;> try rw [hbe] at h2
  all_goals simp_all
  omega

/-- The "not strictly before" relation the stable sort establishes. -/
theorem sortInsert_pairwise {g : Graph} {a : Int} {l : List Int}
    (hpres : ∀ x ∈ l, (g.getNode x).isSome)
    (hl : l.Pairwise (fun x y => priorityGt g y x = false)) :
    (sortInsert g a l).Pairwise (fun x y => priorityGt g y x = false) := by
  induction l with
  | nil => simp [sortInsert]
  | cons b rest ih =>
      rw [sortInsert]
      rw [List.pairwise_cons] at hl
      obtain ⟨hbrest, hrest⟩ := hl
      by_cases h : priorityGt g b a = true
      · rw [if_pos h]
        rw [List.pairwise_cons]
        constructor
        · intro z hz
          rcases List.mem_cons.mp ((sortInsert_perm g a rest).mem_iff.mp hz) with
            rfl | hz2
          · exact priorityGt_asymm h
          · exact hbrest z hz2
        · exact ih (fun x hx => hpres x (List.mem_cons_of_mem _ hx)) hrest
      · rw [if_neg h]
        rw [List.pairwise_cons]
        refine ⟨?_, List.Pairwise.cons hbrest hrest⟩
        intro z hz
        rcases List.mem_cons.mp hz with rfl | hz2
        · exact Bool.eq_false_iff.mpr h
        · exact priorityGt_negtrans (hpres b (List.mem_cons_self _ _))
            (Bool.eq_false_iff.mpr h) (hbrest z hz2)

theorem sortByPriority_pairwise {g : Graph} {l : List Int}
    (hpres : ∀ x ∈ l, (g.getNode x).isSome) :
    (sortByPriority g l).Pairwise (fun x y => priorityGt g y x = false) := by
  induction l with
  | nil => simp [sortByPriority]
  | cons a rest ih =>
      rw [sortByPriority]
      have hrest : ∀ x ∈ rest, (g.getNode x).isSome :=
        fun x hx => hpres x (List.mem_cons_of_mem _ hx)
      refine sortInsert_pairwise ?_ (ih hrest)
      intro x hx
      exact hrest x ((sortByPriority_perm g rest).mem_iff.mp hx)

theorem mem_nodesToAssign {g : Graph} {x : Int} (hx : x ∈ nodesToAssign g) :
    x ≠ 0 ∧ ∃ n, g.getNode x = some n ∧ 0 < n.demand := by
  rw [nodesToAssign, List.mem_filter] at hx
  obtain ⟨_, hprop⟩ := hx
  rcases hn : g.getNode x with _ | n <;> rw [hn] at hprop <;> simp_all

/-- C6 (amended): `allocateVehicles` processes exactly the collected
demand locations, in an order sorted by non-increasing priority; the
relative order of equal-priority locations is the (deterministic, in the
model) container order, not an id-based tie-break. -/
theorem allocate_processing_order (g : Graph) :
    (sortByPriority g (nodesToAssign g)).Perm (nodesToAssign g) ∧
      (sortByPriority g (nodesToAssign g)).Pairwise
        (fun a b => priorityOf g b ≤ priorityOf g a) := by
  refine ⟨sortByPriority_perm g _, ?_⟩
  have hpres : ∀ x ∈ nodesToAssign g, (g.getNode x).isSome := by
    intro x hx
    obtain ⟨_, n, hn, _⟩ := mem_nodesToAssign hx
    rw [hn]; rfl
  refine (sortByPriority_pairwise hpres).imp_of_mem ?_
  intro a b ha hb h
  have hamem := (sortByPriority_perm g _).mem_iff.mp ha
  have hbmem := (sortByPriority_perm g _).mem_iff.mp hb
  obtain ⟨_, na, hna, _⟩ := mem_nodesToAssign hamem
  obtain ⟨_, nb, hnb, _⟩ := mem_nodesToAssign hbmem
  rw [priorityGt, hna, hnb] at h
  rw [priorityOf, priorityOf, hna, hnb]
  simpa using h

/-- Two equal-priority locations inserted in the order 2, 1. -/
def gC6 : Graph :=
  ((emptyGraph.addNode ⟨0, 0, 0⟩).addNode ⟨2, 1, 5⟩).addNode ⟨1, 1, 5⟩

/-- C6 counterexample: the processed order keeps container order `[2, 1]`
for the two equal-priority locations; it is not ascending-id. -/
theorem allocate_order_no_id_tiebreak :
    nodesToAssign gC6 = [2, 1] ∧
      sortByPriority gC6 (nodesToAssign gC6) = [2, 1] ∧
      priorityOf gC6 2 = priorityOf gC6 1 ∧
      ¬ (2 : Int) < 1 ∧ [2, 1] ≠ ([1, 2] : List Int) := by
  refine ⟨?_, ?_, ?_, by decide, by decide⟩ <;> rfl

/-! ### The vehicle-selection loop: characterisation (C5, used by C2) -/

/-- The effective candidate cost a vehicle offers for a location: its
shortest-path distance when it has capacity, MAX otherwise (an infeasible
vehicle is skipped, which is observationally the same as offering MAX). -/
def candOf (g : Graph) (demand nodeId : Int) (v : Vehicle) : EDist :=
  if v.canServe demand then distOf g v nodeId else none

theorem eLt_isSome {a b : EDist} (h : eLt a b = true) : a.isSome := by
  rcases a with _ | x
  · simp [eLt] at h
  · rfl

theorem selectLoop_cons (g : Graph) (demand nodeId : Int) (v : Vehicle)
    (rest : List Vehicle) (i : Nat) (b : Option Nat) (m : EDist) :
    selectLoop g demand nodeId (v :: rest) i (b, m) =
      if eLt (candOf g demand nodeId v) m then
        selectLoop g demand nodeId rest (i + 1) (some i, candOf g demand nodeId v)
      else
        selectLoop g demand nodeId rest (i + 1) (b, m) := by
  by_cases hcs : v.canServe demand = true
  · by_cases hlt : eLt (distOf g v nodeId) m = true
    · have hc2 : (eLt (distOf g v nodeId) m && (distOf g v nodeId).isSome) = true := by
        rw [hlt, eLt_isSome hlt]
        rfl
      simp [selectLoop, candOf, hcs, hlt, hc2]
      intro hnone
      rw [hnone] at hlt
      simp [eLt] at hlt
    · have hlt2 : eLt (distOf g v nodeId) m = false := Bool.not_eq_true _ |>.mp hlt
      have hc2 : (eLt (distOf g v nodeId) m && (distOf g v nodeId).isSome) = false := by
        rw [hlt2]; rfl
      simp [selectLoop, candOf, hcs, hlt2, hc2]
  · have hcs2 : v.canServe demand = false := Bool.not_eq_true _ |>.mp hcs
    simp [selectLoop, candOf, hcs2, eLt]

theorem eLt_lt_of_le {d d2 : ℚ} {m : EDist} (h1 : eLt (some d) m = true)
    (h2 : d2 ≤ d) : eLt (some d2) m = true := by
  rcases m with _ | mv
  · rfl
  · simp [eLt] at h1 ⊢
    exact lt_of_le_of_lt h2 h1

/-- Full characterisation of the inner vehicle loop: either no candidate
improves on the incoming minimum and the accumulator is returned
unchanged, or the loop returns the position of the first candidate
attaining the strictly-smallest improving cost. -/
theorem selectLoop_char (g : Graph) (demand nodeId : Int) :
    ∀ (l : List Vehicle) (k : Nat) (b : Option Nat) (m : EDist),
      (selectLoop g demand nodeId l k (b, m) = (b, m) ∧
        ∀ j (hj : j < l.length) dj,
          candOf g demand nodeId (l.get ⟨j, hj⟩) = some dj →
            eLt (some dj) m = false) ∨
      (∃ (j : Nat) (hj : j < l.length) (dv : ℚ),
        selectLoop g demand nodeId l k (b, m) = (some (k + j), some dv) ∧
          candOf g demand nodeId (l.get ⟨j, hj⟩) = some dv ∧
          eLt (some dv) m = true ∧
          ∀ j2 (hj2 : j2 < l.length) d2,
            candOf g demand nodeId (l.get ⟨j2, hj2⟩) = some d2 →
              dv ≤ d2 ∧ (j2 < j → dv < d2)) := by
  intro l
  induction l with
  | nil =>
      intro k b m
      left
      exact ⟨rfl, fun j hj => absurd hj (by simp)⟩
  | cons v rest ih =>
      intro k b m
      rw [selectLoop_cons]
      by_cases htr0 : eLt (candOf g demand nodeId v) m = true
      case neg =>
        have htr : eLt (candOf g demand nodeId v) m = false :=
          Bool.not_eq_true _ |>.mp htr0
        rw [if_neg htr0]
        rcases ih (k + 1) b m with ⟨heq, hall⟩ | ⟨j, hj, dv, heq, hc, hlt, hmin⟩
        · left
          refine ⟨heq, ?_⟩
          intro j hj dj hcj
          cases j with
          | zero => rw [List.get] at hcj; rw [hcj] at htr; exact htr
          | succ j2 =>
              exact hall j2 (by simpa using Nat.lt_of_succ_lt_succ hj) dj hcj
        · right
          refine ⟨j + 1, by simpa using Nat.succ_lt_succ hj, dv, by
            rw [heq, show k + 1 + j = k + (j + 1) from by omega], hc, hlt, ?_⟩
          intro j2 hj2 d2 hcj2
          cases j2 with
          | zero =>
              rw [List.get] at hcj2
              rw [hcj2] at htr
              have hdlt : dv < d2 := by
                by_contra hle
                rw [eLt_lt_of_le hlt (not_lt.mp hle)] at htr
                simp at htr
              exact ⟨le_of_lt hdlt, fun _ => hdlt⟩
          | succ j3 =>
              have h3 := hmin j3 (by simpa using Nat.lt_of_succ_lt_succ hj2) d2 hcj2
              exact ⟨h3.1, fun hlt2 => h3.2 (by omega)⟩
      case pos =>
        rw [if_pos htr0]
        have hsome := eLt_isSome htr0
        rcases hcv : candOf g demand nodeId v with _ | dvh
        · rw [hcv] at hsome; simp at hsome
        · rw [hcv] at htr0
          have htr := htr0
          rcases ih (k + 1) (some k) (some dvh) with ⟨heq, hall⟩ |
            ⟨j, hj, dv, heq, hc, hlt, hmin⟩
          · right
            refine ⟨0, by simp, dvh, by rw [heq]; simp, hcv, htr, ?_⟩
            intro j2 hj2 d2 hcj2
            cases j2 with
            | zero =>
                rw [List.get] at hcj2
                rw [hcv] at hcj2
                obtain rfl : dvh = d2 := by injection hcj2
                exact ⟨le_refl _, by omega⟩
            | succ j3 =>
                have h3 := hall j3 (by simpa using Nat.lt_of_succ_lt_succ hj2) d2 hcj2
                simp [eLt] at h3
                exact ⟨h3, by omega⟩
          · right
            refine ⟨j + 1, by simpa using Nat.succ_lt_succ hj, dv, by
              rw [heq, show k + 1 + j = k + (j + 1) from by omega], hc, ?_, ?_⟩
            · simp [eLt] at hlt ⊢
              rcases m with _ | mv
              · rfl
              · simp [eLt] at htr ⊢
                exact hlt.trans htr
            · intro j2 hj2 d2 hcj2
              cases j2 with
              | zero =>
                  rw [List.get] at hcj2
                  rw [hcv] at hcj2
                  obtain rfl : dvh = d2 := by injection hcj2
                  simp [eLt] at hlt
                  exact ⟨le_of_lt hlt, fun _ => hlt⟩
              | succ j3 =>
                  have h3 := hmin j3 (by simpa using Nat.lt_of_succ_lt_succ hj2) d2 hcj2
                  exact ⟨h3.1, fun hlt2 => h3.2 (by omega)⟩

theorem candOf_some {g : Graph} {demand nodeId : Int} {v : Vehicle} {d : ℚ}
    (h : candOf g demand nodeId v = some d) :
    v.canServe demand = true ∧ distOf g v nodeId = some d := by
  rw [candOf] at h
  rcases hcs : v.canServe demand with _ | _ <;> rw [hcs] at h
  · simp at h
  · exact ⟨rfl, h⟩

theorem candOf_of_canServe {g : Graph} {demand nodeId : Int} {v : Vehicle}
    (h : v.canServe demand = true) :
    candOf g demand nodeId v = distOf g v nodeId := by
  rw [candOf, if_pos h]

/-- `selectBest = some i` gives a feasible vehicle with the (first-wins)
strictly minimal finite extra cost. -/
theorem selectBest_some {g : Graph} {vs : List Vehicle} {demand nodeId : Int}
    {i : Nat} (h : selectBest g vs demand nodeId = some i) :
    ∃ (hi : i < vs.length) (d : ℚ),
      (vs.get ⟨i, hi⟩).canServe demand = true ∧
      distOf g (vs.get ⟨i, hi⟩) nodeId = some d ∧
      ∀ j (hj : j < vs.length) (dj : ℚ),
        (vs.get ⟨j, hj⟩).canServe demand = true →
        distOf g (vs.get ⟨j, hj⟩) nodeId = some dj →
          d ≤ dj ∧ (j < i → d < dj) := by
  rw [selectBest] at h
  rcases selectLoop_char g demand nodeId vs 0 none none with ⟨heq, _⟩ |
    ⟨j, hj, dv, heq, hc, _, hmin⟩
  · rw [heq] at h; simp at h
  · rw [heq] at h
    simp only [Nat.zero_add] at h
    obtain rfl : j = i := by injection h
    obtain ⟨hcs, hdist⟩ := candOf_some hc
    refine ⟨hj, dv, hcs, hdist, ?_⟩
    intro j2 hj2 dj hcs2 hd2
    exact hmin j2 hj2 dj (by rw [candOf_of_canServe hcs2]; exact hd2)

/-- `selectBest = none` means every vehicle with capacity has MAX
(unreachable) shortest-path distance. -/
theorem selectBest_none {g : Graph} {vs : List Vehicle} {demand nodeId : Int}
    (h : selectBest g vs demand nodeId = none) :
    ∀ j (hj : j < vs.length),
      (vs.get ⟨j, hj⟩).canServe demand = true →
        distOf g (vs.get ⟨j, hj⟩) nodeId = none := by
  intro j hj hcs
  rcases hd : distOf g (vs.get ⟨j, hj⟩) nodeId with _ | d
  · rfl
  · exfalso
    rw [selectBest] at h
    rcases selectLoop_char g demand nodeId vs 0 none none with ⟨_, hall⟩ |
      ⟨j2, hj2, dv, heq, _, _, _⟩
    · have := hall j hj d (by rw [candOf_of_canServe hcs]; exact hd)
      simp [eLt] at this
    · rw [heq] at h; simp at h

theorem assignStep_nonode {g : Graph} {vs : List Vehicle} {nodeId : Int}
    (hn : g.getNode nodeId = none) : assignStep g vs nodeId = vs := by
  rw [assignStep, hn]

theorem assignStep_none {g : Graph} {vs : List Vehicle} {nodeId : Int}
    {node : Node} (hn : g.getNode nodeId = some node)
    (hsel : selectBest g vs node.demand nodeId = none) :
    assignStep g vs nodeId = vs := by
  rw [assignStep, hn]
  show (match selectBest g vs node.demand nodeId with
        | none => vs
        | some i => listModify vs i (fun v => v.addNode nodeId node.demand)) = vs
  rw [hsel]

theorem assignStep_some {g : Graph} {vs : List Vehicle} {nodeId : Int}
    {node : Node} {i : Nat} (hn : g.getNode nodeId = some node)
    (hsel : selectBest g vs node.demand nodeId = some i) :
    assignStep g vs nodeId =
      listModify vs i (fun v => v.addNode nodeId node.demand) := by
  rw [assignStep, hn]
  show (match selectBest g vs node.demand nodeId with
        | none => vs
        | some i => listModify vs i (fun v => v.addNode nodeId node.demand)) = _
  rw [hsel]

theorem listModify_mem {α : Type} {l : List α} {i : Nat} {f : α → α} {x : α}
    (hx : x ∈ listModify l i f) :
    x ∈ l ∨ ∃ (hi : i < l.length), x = f (l.get ⟨i, hi⟩) := by
  induction l generalizing i with
  | nil => simp [listModify] at hx
  | cons a xs ih =>
      cases i with
      | zero =>
          rcases List.mem_cons.mp hx with rfl | hx2
          · exact Or.inr ⟨by simp, rfl⟩
          · exact Or.inl (List.mem_cons_of_mem _ hx2)
      | succ n =>
          rcases List.mem_cons.mp hx with rfl | hx2
          · exact Or.inl (List.mem_cons_self _ _)
          · rcases ih hx2 with h | ⟨hi, heq⟩
            · exact Or.inl (List.mem_cons_of_mem _ h)
            · exact Or.inr ⟨by simpa using Nat.succ_lt_succ hi, heq⟩

/-- C5: each processed location goes to the feasible vehicle
(`currentLoad + demand ≤ capacity`) whose shortest-path distance from the
last node of its current route is strictly minimal, first vehicle winning
ties; vehicles whose distance is the MAX sentinel are excluded; and with
no feasible finite-distance vehicle the location is appended to no route
and no error is raised. -/
theorem allocate_greedy_choice (g : Graph) (vs : List Vehicle) (nodeId : Int)
    (node : Node) (hnode : g.getNode nodeId = some node) :
    (∀ i, selectBest g vs node.demand nodeId = some i →
      ∃ (hi : i < vs.length) (d : ℚ),
        (vs.get ⟨i, hi⟩).canServe node.demand = true ∧
        distOf g (vs.get ⟨i, hi⟩) nodeId = some d ∧
        (∀ j (hj : j < vs.length) (dj : ℚ),
          (vs.get ⟨j, hj⟩).canServe node.demand = true →
          distOf g (vs.get ⟨j, hj⟩) nodeId = some dj →
            d ≤ dj ∧ (j < i → d < dj)) ∧
        assignStep g vs nodeId =
          listModify vs i (fun v => v.addNode nodeId node.demand)) ∧
    (selectBest g vs node.demand nodeId = none →
      (∀ j (hj : j < vs.length),
        (vs.get ⟨j, hj⟩).canServe node.demand = true →
          distOf g (vs.get ⟨j, hj⟩) nodeId = none) ∧
      assignStep g vs nodeId = vs) := by
  constructor
  · intro i hsel
    obtain ⟨hi, d, hcs, hd, hmin⟩ := selectBest_some hsel
    exact ⟨hi, d, hcs, hd, hmin, assignStep_some hnode hsel⟩
  · intro hsel
    exact ⟨selectBest_none hsel, assignStep_none hnode hsel⟩

/-- Single-node witness graph for the allocation claims. -/
def gW5 : Graph := emptyGraph.addNode ⟨0, 2, 0⟩

theorem allocate_greedy_choice_witness :
    ∃ (hi : 0 < [mkVehicle 1 5].length) (d : ℚ),
      ([mkVehicle 1 5].get ⟨0, hi⟩).canServe (2 : Int) = true ∧
      distOf gW5 ([mkVehicle 1 5].get ⟨0, hi⟩) 0 = some d ∧
      (∀ j (hj : j < [mkVehicle 1 5].length) (dj : ℚ),
        ([mkVehicle 1 5].get ⟨j, hj⟩).canServe (2 : Int) = true →
        distOf gW5 ([mkVehicle 1 5].get ⟨j, hj⟩) 0 = some dj →
          d ≤ dj ∧ (j < 0 → d < dj)) ∧
      assignStep gW5 [mkVehicle 1 5] 0 =
        listModify [mkVehicle 1 5] 0 (fun v => v.addNode 0 2) :=
  (allocate_greedy_choice gW5 [mkVehicle 1 5] 0 ⟨0, 2, 0⟩ rfl).1 0 rfl

/-! ### C2: loads never exceed capacity -/

theorem assignStep_load {g : Graph} {vs : List Vehicle} {nodeId : Int}
    (h : ∀ v ∈ vs, v.currentLoad ≤ v.capacity) :
    ∀ v ∈ assignStep g vs nodeId, v.currentLoad ≤ v.capacity := by
  intro v hv
  rcases hn : g.getNode nodeId with _ | node
  · rw [assignStep_nonode hn] at hv; exact h v hv
  · rcases hsel : selectBest g vs node.demand nodeId with _ | i
    · rw [assignStep_none hn hsel] at hv; exact h v hv
    · rw [assignStep_some hn hsel] at hv
      rcases listModify_mem hv with hmem | ⟨hi, heq⟩
      · exact h v hmem
      · obtain ⟨hi2, d, hcs, _, _⟩ := selectBest_some hsel
        subst heq
        rw [Vehicle.addNode]
        simp only [Vehicle.canServe, decide_eq_true_eq] at hcs
        exact hcs

theorem fold_load {g : Graph} (l : List Int) :
    ∀ vs, (∀ v ∈ vs, v.currentLoad ≤ v.capacity) →
      ∀ v ∈ l.foldl (assignStep g) vs, v.currentLoad ≤ v.capacity := by
  induction l with
  | nil => intro vs h; exact h
  | cons a rest ih =>
      intro vs h
      exact ih (assignStep g vs a) (assignStep_load h)

/-- C2: if every location demand is non-negative and every vehicle starts
with zero load and non-negative capacity, then after `allocateVehicles`
every vehicle satisfies `currentLoad ≤ capacity` (a location is only ever
added after the `canServe` check succeeds). -/
theorem allocate_load_le_capacity (g : Graph) (vehicles : List Vehicle)
    (hdem : ∀ nodeId n, g.getNode nodeId = some n → 0 ≤ n.demand)
    (hinit : ∀ v ∈ vehicles, v.currentLoad = 0 ∧ 0 ≤ v.capacity) :
    ∀ v ∈ allocateVehicles g vehicles, v.currentLoad ≤ v.capacity := by
  intro v hv
  rw [allocateVehicles] at hv
  rw [List.mem_map] at hv
  obtain ⟨v0, hv0, rfl⟩ := hv
  rw [Vehicle.finalizeRoute]
  have h0 : ∀ w ∈ vehicles, w.currentLoad ≤ w.capacity := by
    intro w hw
    obtain ⟨h1, h2⟩ := hinit w hw
    omega
  exact fold_load _ vehicles h0 v0 hv0

theorem allocate_load_le_capacity_witness :
    (⟨1, 5, 0, [0, 0]⟩ : Vehicle) ∈ allocateVehicles gW5 [mkVehicle 1 5] ∧
    (⟨1, 5, 0, [0, 0]⟩ : Vehicle).currentLoad ≤
      (⟨1, 5, 0, [0, 0]⟩ : Vehicle).capacity := by
  refine ⟨by decide, ?_⟩
  refine allocate_load_le_capacity gW5 [mkVehicle 1 5] ?_ ?_
    ⟨1, 5, 0, [0, 0]⟩ (by decide)
  · intro nodeId n h
    rw [gW5, emptyGraph, Graph.addNode, Graph.getNode] at h
    simp only [assocSet] at h
    rw [lookup_cons] at h
    by_cases h0 : nodeId = 0
    · rw [if_pos h0] at h
      obtain rfl : (⟨0, 2, 0⟩ : Node) = n := by injection h
      decide
    · rw [if_neg h0] at h
      simp [List.lookup] at h
  · intro v hv
    obtain rfl : v = mkVehicle 1 5 := by simpa using hv
    exact ⟨rfl, by decide⟩

/-! ### C3: each demand location is assigned at most once -/

/-- Total number of occurrences of `nodeId` across all routes. -/
def routeCountSum (nodeId : Int) (vs : List Vehicle) : Nat :=
  (vs.map (fun v => v.route.count nodeId)).sum

theorem listModify_sum_le {l : List Vehicle} {f : Vehicle → Vehicle}
    {m : Vehicle → Nat} {c : Nat} (hf : ∀ v, m (f v) ≤ m v + c) :
    ∀ i, ((listModify l i f).map m).sum ≤ (l.map m).sum + c := by
  induction l with
  | nil => intro i; simp [listModify]
  | cons a xs ih =>
      intro i
      cases i with
      | zero =>
          simp only [listModify, List.map_cons, List.sum_cons]
          have := hf a
          omega
      | succ n =>
          simp only [listModify, List.map_cons, List.sum_cons]
          have := ih n
          omega

theorem assignStep_count_le (g : Graph) (vs : List Vehicle) (nodeId x : Int) :
    routeCountSum x (assignStep g vs nodeId) ≤
      routeCountSum x vs + (if nodeId = x then 1 else 0) := by
  rcases hn : g.getNode nodeId with _ | node
  · rw [assignStep_nonode hn]
    split <;> omega
  · rcases hsel : selectBest g vs node.demand nodeId with _ | i
    · rw [assignStep_none hn hsel]
      split <;> omega
    · rw [assignStep_some hn hsel, routeCountSum, routeCountSum]
      refine listModify_sum_le ?_ i
      intro v
      rw [Vehicle.addNode]
      simp only [List.count_append, List.count_singleton]
      by_cases hx : nodeId = x
      · simp [hx]
      · have : (nodeId == x) = false := by simp [hx]
        simp [this, hx]

theorem fold_count_le (g : Graph) (x : Int) :
    ∀ (l : List Int) (vs : List Vehicle),
      routeCountSum x (l.foldl (assignStep g) vs) ≤
        routeCountSum x vs + l.count x := by
  intro l
  induction l with
  | nil => intro vs; simp
  | cons a rest ih =>
      intro vs
      rw [List.foldl_cons]
      calc routeCountSum x (rest.foldl (assignStep g) (assignStep g vs a))
          ≤ routeCountSum x (assignStep g vs a) + rest.count x := ih _
        _ ≤ routeCountSum x vs + (if a = x then 1 else 0) + rest.count x := by
            have := assignStep_count_le g vs a x
            omega
        _ ≤ routeCountSum x vs + (a :: rest).count x := by
            rw [List.count_cons]
            have : (if (a == x) = true then 1 else 0) = (if a = x then 1 else 0) := by
              by_cases h : a = x <;> simp [h]
            omega

theorem routeCountSum_finalize (x : Int) (hx : x ≠ 0) (vs : List Vehicle) :
    routeCountSum x (vs.map Vehicle.finalizeRoute) = routeCountSum x vs := by
  induction vs with
  | nil => rfl
  | cons v rest ih =>
      have hv : (Vehicle.finalizeRoute v).route.count x = v.route.count x := by
        rw [Vehicle.finalizeRoute]
        simp only [List.count_append, List.count_singleton]
        have h0 : ((0 : Int) == x) = false := by simp [Ne.symm hx]
        simp [h0]
      show ((List.map Vehicle.finalizeRoute (v :: rest)).map
          (fun v => v.route.count x)).sum =
        ((v :: rest).map (fun v => v.route.count x)).sum
      simp only [List.map_cons, List.sum_cons]
      rw [hv]
      have ih2 : ((List.map Vehicle.finalizeRoute rest).map
          (fun v => v.route.count x)).sum =
          (rest.map (fun v => v.route.count x)).sum := ih
      rw [ih2]

/-- C3: starting from vehicles whose routes are `[0]`, after
`allocateVehicles` every non-depot location with positive demand appears
in at most one vehicle's route, and at most once in it (so the total
occurrence count across all routes is at most one).  `hids` states that
node ids are unique, as they are for every graph the C++ `unordered_map`
can represent. -/
theorem allocate_assigned_at_most_once (g : Graph) (vehicles : List Vehicle)
    (hids : g.getAllNodeIds.Nodup)
    (hroutes : ∀ v ∈ vehicles, v.route = [0]) :
    ∀ nodeId n, nodeId ≠ 0 → g.getNode nodeId = some n → 0 < n.demand →
      routeCountSum nodeId (allocateVehicles g vehicles) ≤ 1 := by
  intro nodeId n hnz hn hdem
  rw [allocateVehicles, routeCountSum_finalize nodeId hnz]
  have hinit : routeCountSum nodeId vehicles = 0 := by
    induction vehicles with
    | nil => rfl
    | cons v rest ih =>
        rw [routeCountSum, List.map_cons, List.sum_cons,
          hroutes v (List.mem_cons_self _ _)]
        rw [routeCountSum] at ih
        rw [ih (fun w hw => hroutes w (List.mem_cons_of_mem _ hw))]
        have : ((0 : Int) == nodeId) = false := by simp [Ne.symm hnz]
        simp [List.count_singleton, this]
  have hcount : (sortByPriority g (nodesToAssign g)).count nodeId ≤ 1 := by
    have hnd : (nodesToAssign g).Nodup := hids.filter _
    have hnd2 : (sortByPriority g (nodesToAssign g)).Nodup :=
      ((sortByPriority_perm g _).nodup_iff).mpr hnd
    exact List.nodup_iff_count_le_one.mp hnd2 nodeId
  have := fold_count_le g nodeId (sortByPriority g (nodesToAssign g)) vehicles
  omega

theorem allocate_assigned_at_most_once_witness :
    routeCountSum 1 (allocateVehicles gC6 [mkVehicle 1 5]) ≤ 1 := by
  refine allocate_assigned_at_most_once gC6 [mkVehicle 1 5] (by decide) ?_ 1
    ⟨1, 1, 5⟩ (by decide) (by rfl) (by decide)
  intro v hv
  obtain rfl : v = mkVehicle 1 5 := by simpa using hv
  rfl

/-! ### C4: correctness of `dijkstra` -/

/-- A walk from `s` along adjacency entries, with its accumulated cost. -/
inductive Walk (g : Graph) (s : Int) : Int → ℚ → Prop where
  | refl : Walk g s s 0
  | step {u : Int} {c : ℚ} {p : Int × Edge} :
      Walk g s u c → p ∈ g.getNeighbors u → Walk g s p.1 (c + p.2.cost)

/-- `v` can be reached from `s` over the road network. -/
def Reachable (g : Graph) (s v : Int) : Prop :=
  ∃ c, Walk g s v c

/-- `q` is the minimum cumulative road cost from `s` to `v`. -/
def IsMinWalk (g : Graph) (s v : Int) (q : ℚ) : Prop :=
  Walk g s v q ∧ ∀ c, Walk g s v c → q ≤ c

/-- All adjacency costs non-negative (the claim's hypothesis). -/
def NonnegCosts (g : Graph) : Prop :=
  ∀ u : Int, ∀ p ∈ g.getNeighbors u, 0 ≤ p.2.cost

/-- Every adjacency target is a declared node id — the hypothesis the
counterexample below shows the claim needs (an edge endpoint never passed
to `addNode` silently blocks propagation through `operator[]`
default-insertion). -/
def ClosedAdj (g : Graph) : Prop :=
  ∀ u : Int, ∀ p ∈ g.getNeighbors u, p.1 ∈ g.getAllNodeIds

theorem walk_cost_nonneg {g : Graph} {s v : Int} {c : ℚ}
    (hnn : NonnegCosts g) (h : Walk g s v c) : 0 ≤ c := by
  induction h with
  | refl => exact le_refl 0
  | step hw hp ih => exact add_nonneg ih (hnn _ _ hp)

theorem lookup_assocSet {β : Type} (m : List (Int × β)) (k : Int) (b : β)
    (x : Int) :
    (assocSet m k b).lookup x = if x = k then some b else m.lookup x := by
  induction m with
  | nil =>
      by_cases h : x = k
      · subst h; simp [assocSet, lookup_cons]
      · have hb : (x == k) = false := by simp [h]
        simp [assocSet, lookup_cons, h, List.lookup, hb]
  | cons hd rest ih =>
      obtain ⟨k2, b2⟩ := hd
      by_cases h2 : k2 = k
      · subst h2
        by_cases hx : x = k2
        · subst hx; simp [assocSet, lookup_cons]
        · simp [assocSet, lookup_cons, hx]
      · simp only [assocSet, if_neg h2]
        by_cases hx : x = k2
        · subst hx
          simp [lookup_cons, h2]
        · simp only [lookup_cons, if_neg hx]
          exact ih

theorem assocSet_keys {β : Type} (m : List (Int × β)) (k : Int) (b : β)
    (h : (m.lookup k).isSome) :
    (assocSet m k b).map Prod.fst = m.map Prod.fst := by
  induction m with
  | nil => simp [List.lookup] at h
  | cons hd rest ih =>
      obtain ⟨k2, b2⟩ := hd
      by_cases h2 : k2 = k
      · subst h2; simp [assocSet]
      · rw [lookup_cons, if_neg (Ne.symm h2)] at h
        simp only [assocSet, if_neg h2, List.map_cons]
        rw [ih h]

theorem lookup_mem {β : Type} {al : List (Int × β)} {k : Int} {v : β}
    (h : al.lookup k = some v) : (k, v) ∈ al := by
  induction al with
  | nil => simp [List.lookup] at h
  | cons hd rest ih =>
      obtain ⟨k2, b2⟩ := hd
      rw [lookup_cons] at h
      by_cases hx : k = k2
      · rw [if_pos hx] at h
        obtain rfl : b2 = v := by injection h
        subst hx
        exact List.mem_cons_self _ _
      · rw [if_neg hx] at h
        exact List.mem_cons_of_mem _ (ih h)

theorem mem_keys_lookup {β : Type} {m : List (Int × β)} {x : Int}
    (h : x ∈ m.map Prod.fst) : ∃ e, m.lookup x = some e := by
  induction m with
  | nil => simp at h
  | cons hd rest ih =>
      obtain ⟨k2, b2⟩ := hd
      rw [List.map_cons] at h
      rcases List.mem_cons.mp h with h1 | h2
      · exact ⟨b2, by rw [lookup_cons, if_pos h1]⟩
      · by_cases hx : x = k2
        · exact ⟨b2, by rw [lookup_cons, if_pos hx]⟩
        · obtain ⟨e, he⟩ := ih h2
          exact ⟨e, by rw [lookup_cons, if_neg hx]; exact he⟩

theorem dmGetD_present {m : List (Int × EDist)} {k : Int} {e : EDist}
    (h : m.lookup k = some e) : dmGetD m k = (m, e) := by
  rw [dmGetD, h]

theorem pairLt_iff {a b : ℚ × Int} :
    pairLt a b = true ↔ (a.1 < b.1 ∨ (a.1 = b.1 ∧ a.2 < b.2)) := by
  simp [pairLt]

theorem pairLt_false_iff {a b : ℚ × Int} :
    pairLt a b = false ↔ (b.1 < a.1 ∨ (a.1 = b.1 ∧ b.2 ≤ a.2)) := by
  rw [← Bool.not_eq_true, pairLt_iff]
  constructor
  · intro h
    push_neg at h
    obtain ⟨h1, h2⟩ := h
    rcases lt_trichotomy a.1 b.1 with hlt | heq | hgt
    · exact absurd hlt (not_lt.mpr h1)
    · have h3 := h2 heq
      exact Or.inr ⟨heq, by omega⟩
    · exact Or.inl hgt
  · intro h hcon
    rcases h with h | ⟨heq, hle⟩
    · rcases hcon with h2 | ⟨h2, _⟩
      · exact absurd (h.trans h2) (lt_irrefl _)
      · exact absurd h (by rw [h2]; exact lt_irrefl _)
    · rcases hcon with h2 | ⟨_, h2⟩
      · exact absurd h2 (by rw [heq]; exact lt_irrefl _)
      · omega

theorem pairLt_climb {y x m : ℚ × Int} (h1 : pairLt y x = true)
    (h2 : pairLt y m = false) : pairLt x m = false := by
  rw [pairLt_iff] at h1
  rw [pairLt_false_iff] at h2 ⊢
  rcases h1 with h1 | ⟨he1, hi1⟩ <;> rcases h2 with h2 | ⟨he2, hi2⟩
  · exact Or.inl (h2.trans h1)
  · exact Or.inl (by rw [← he2]; exact h1)
  · exact Or.inl (by rw [he1] at h2; exact h2)
  · exact Or.inr ⟨by rw [← he1, he2], by omega⟩

theorem pairLt_descend {y x m : ℚ × Int} (h1 : pairLt y x = false)
    (h2 : pairLt x m = false) : pairLt y m = false := by
  rw [pairLt_false_iff] at h1 h2 ⊢
  rcases h1 with h1 | ⟨he1, hi1⟩ <;> rcases h2 with h2 | ⟨he2, hi2⟩
  · exact Or.inl (h2.trans h1)
  · exact Or.inl (by rw [← he2]; exact h1)
  · exact Or.inl (by rw [he1]; exact h2)
  · exact Or.inr ⟨he1.trans he2, by omega⟩

theorem pqMinFrom_mem (x : ℚ × Int) (l : List (ℚ × Int)) :
    pqMinFrom x l ∈ x :: l := by
  induction l generalizing x with
  | nil => simp [pqMinFrom]
  | cons y rest ih =>
      rw [pqMinFrom]
      by_cases h : pairLt y x = true
      · rw [if_pos h]
        rcases List.mem_cons.mp (ih y) with h2 | h2
        · rw [h2]
          exact List.mem_cons_of_mem _ (List.mem_cons_self _ _)
        · exact List.mem_cons_of_mem _ (List.mem_cons_of_mem _ h2)
      · rw [if_neg h]
        rcases List.mem_cons.mp (ih x) with h2 | h2
        · rw [h2]
          exact List.mem_cons_self _ _
        · exact List.mem_cons_of_mem _ (List.mem_cons_of_mem _ h2)

theorem pqMinFrom_min (x : ℚ × Int) (l : List (ℚ × Int)) :
    ∀ z ∈ x :: l, pairLt z (pqMinFrom x l) = false := by
  induction l generalizing x with
  | nil =>
      intro z hz
      obtain rfl : z = x := by simpa using hz
      rw [pqMinFrom, pairLt_false_iff]
      exact Or.inr ⟨rfl, le_refl _⟩
  | cons y rest ih =>
      intro z hz
      rw [pqMinFrom]
      by_cases h : pairLt y x = true
      · rw [if_pos h]
        rcases List.mem_cons.mp hz with hzx | hz2
        · rw [hzx]
          exact pairLt_climb h (ih y y (List.mem_cons_self _ _))
        · exact ih y z hz2
      · rw [if_neg h]
        have hfalse : pairLt y x = false := Bool.not_eq_true _ |>.mp h
        rcases List.mem_cons.mp hz with hzx | hz2
        · rw [hzx]
          exact ih x x (List.mem_cons_self _ _)
        · rcases List.mem_cons.mp hz2 with hzy | hz3
          · rw [hzy]
            exact pairLt_descend hfalse (ih x x (List.mem_cons_self _ _))
          · exact ih x z (List.mem_cons_of_mem _ hz3)

theorem removeFirst_subset {x : ℚ × Int} {l : List (ℚ × Int)} :
    ∀ z ∈ removeFirst x l, z ∈ l := by
  induction l with
  | nil => simp [removeFirst]
  | cons y rest ih =>
      intro z hz
      rw [removeFirst] at hz
      by_cases h : y = x
      · rw [if_pos h] at hz
        exact List.mem_cons_of_mem _ hz
      · rw [if_neg h] at hz
        rcases List.mem_cons.mp hz with rfl | hz2
        · exact List.mem_cons_self _ _
        · exact List.mem_cons_of_mem _ (ih z hz2)

theorem mem_removeFirst_of_ne {x z : ℚ × Int} {l : List (ℚ × Int)}
    (hz : z ∈ l) (hne : z ≠ x) : z ∈ removeFirst x l := by
  induction l with
  | nil => simp at hz
  | cons y rest ih =>
      rw [removeFirst]
      by_cases h : y = x
      · rw [if_pos h]
        rcases List.mem_cons.mp hz with rfl | hz2
        · exact absurd h hne
        · exact hz2
      · rw [if_neg h]
        rcases List.mem_cons.mp hz with rfl | hz2
        · exact List.mem_cons_self _ _
        · exact List.mem_cons_of_mem _ (ih hz2)

theorem removeFirst_length {x : ℚ × Int} {l : List (ℚ × Int)} (h : x ∈ l) :
    (removeFirst x l).length + 1 = l.length := by
  induction l with
  | nil => simp at h
  | cons y rest ih =>
      rw [removeFirst]
      by_cases h2 : y = x
      · rw [if_pos h2]; rfl
      · rw [if_neg h2]
        rcases List.mem_cons.mp h with rfl | h3
        · exact absurd rfl h2
        · simp only [List.length_cons]
          rw [← ih h3]

theorem popMin_spec {pq : List (ℚ × Int)} {m : ℚ × Int}
    {rest : List (ℚ × Int)} (h : popMin pq = some (m, rest)) :
    m ∈ pq ∧ rest = removeFirst m pq ∧ ∀ z ∈ pq, pairLt z m = false := by
  rcases pq with _ | ⟨y, l⟩
  · simp [popMin] at h
  · simp only [popMin] at h
    injection h with h2
    rw [Prod.mk.injEq] at h2
    obtain ⟨h3, h4⟩ := h2
    subst h3
    subst h4
    exact ⟨pqMinFrom_mem y l, rfl, pqMinFrom_min y l⟩

/-- The clause the `visited` map certifies for a finalised node: its
distance is the minimum walk cost and all its neighbours are relaxed. -/
def VisAt (g : Graph) (s : Int) (st : DState) (u : Int) : Prop :=
  ∃ q, st.dist.lookup u = some (some q) ∧ IsMinWalk g s u q ∧
    ∀ p ∈ g.getNeighbors u, ∃ qv, st.dist.lookup p.1 = some (some qv) ∧
      qv ≤ q + p.2.cost

/-- Loop-invariant pieces other than the visited-node clause. -/
structure DCore (g : Graph) (s : Int) (st : DState) : Prop where
  keys : st.dist.map Prod.fst = g.getAllNodeIds
  sound : ∀ v q, st.dist.lookup v = some (some q) → Walk g s v q
  src : st.dist.lookup s = some (some 0)
  pqWalk : ∀ dp ∈ st.pq, Walk g s dp.2 dp.1
  pqLe : ∀ dp ∈ st.pq, ∃ qv, st.dist.lookup dp.2 = some (some qv) ∧ qv ≤ dp.1
  pqCover : ∀ v q, st.visited v = false → st.dist.lookup v = some (some q) →
    (q, v) ∈ st.pq
  pqIds : ∀ dp ∈ st.pq, dp.2 ∈ dijkstraIds g s

theorem target_mem_ids {g : Graph} (s : Int) {u : Int} {p : Int × Edge}
    (hp : p ∈ g.getNeighbors u) : p.1 ∈ dijkstraIds g s := by
  rw [dijkstraIds, List.mem_dedup]
  refine List.mem_cons_of_mem _ ?_
  rw [List.mem_flatMap]
  rw [Graph.getNeighbors] at hp
  rcases hl : g.adj.lookup u with _ | l
  · rw [hl] at hp; simp at hp
  · rw [hl] at hp
    exact ⟨(u, l), lookup_mem hl, List.mem_map_of_mem _ hp⟩

theorem relaxOne_spec {g : Graph} {s u : Int} {d : ℚ} {st : DState}
    (hnn : NonnegCosts g) (hcl : ClosedAdj g)
    (hC : DCore g s st)
    (hvisu : st.visited u = true)
    (hu : st.dist.lookup u = some (some d))
    (hmin : IsMinWalk g s u d)
    (hV : ∀ w, w ≠ u → st.visited w = true → VisAt g s st w)
    {p : Int × Edge} (hp : p ∈ g.getNeighbors u) :
    DCore g s (relaxOne g u st p) ∧
      (relaxOne g u st p).visited = st.visited ∧
      (relaxOne g u st p).dist.lookup u = some (some d) ∧
      (∀ w, w ≠ u → (relaxOne g u st p).visited w = true →
        VisAt g s (relaxOne g u st p) w) ∧
      (∃ qv, (relaxOne g u st p).dist.lookup p.1 = some (some qv) ∧
        qv ≤ d + p.2.cost) ∧
      (∀ w q0, st.dist.lookup w = some (some q0) →
        ∃ q1, (relaxOne g u st p).dist.lookup w = some (some q1) ∧ q1 ≤ q0) ∧
      (relaxOne g u st p).pq.length ≤ st.pq.length + 1 := by
  have hd0 : 0 ≤ d := walk_cost_nonneg hnn (hC.sound u d hu)
  have hc0 : 0 ≤ p.2.cost := hnn u p hp
  by_cases hv : st.visited p.1 = true
  · have heq : relaxOne g u st p = st := by
      rw [relaxOne, if_pos hv]
    rw [heq]
    refine ⟨hC, rfl, hu, fun w hne hw => hV w hne hw, ?_, ?_, by omega⟩
    · by_cases hpu : p.1 = u
      · exact ⟨d, by rw [hpu]; exact hu, by linarith⟩
      · obtain ⟨q, hlq, hminp, _⟩ := hV p.1 hpu hv
        exact ⟨q, hlq, hminp.2 _ (hmin.1.step hp)⟩
    · intro w q0 h0
      exact ⟨q0, h0, le_refl _⟩
  · have hv2 : st.visited p.1 = false := Bool.not_eq_true _ |>.mp hv
    have hkeymem : p.1 ∈ st.dist.map Prod.fst := by
      rw [hC.keys]; exact hcl u p hp
    obtain ⟨e, he⟩ := mem_keys_lookup hkeymem
    have hpu : p.1 ≠ u := by
      intro h
      rw [h, hvisu] at hv2
      exact Bool.true_eq_false.mp hv2 |>.elim
    have hunfold : relaxOne g u st p =
        if eLt (some (d + p.2.cost)) e then
          { dist := assocSet st.dist p.1 (some (d + p.2.cost))
            visited := st.visited
            pq := st.pq ++ [(d + p.2.cost, p.1)] }
        else st := by
      rw [relaxOne, if_neg (by rw [hv2]; exact Bool.false_ne_true)]
      simp only [dmGetD_present hu, dmGetD_present he]
    rw [hunfold]
    by_cases hrel : eLt (some (d + p.2.cost)) e = true
    · rw [if_pos hrel]
      have hwalkp : Walk g s p.1 (d + p.2.cost) := hmin.1.step hp
      have hlookup : ∀ x : Int,
          (assocSet st.dist p.1 (some (d + p.2.cost))).lookup x =
            if x = p.1 then some (some (d + p.2.cost)) else st.dist.lookup x :=
        fun x => lookup_assocSet _ _ _ _
      have hps : p.1 ≠ s := by
        intro h
        rw [h] at he
        rw [hC.src] at he
        have h2 : some 0 = e := by injection he
        rw [← h2] at hrel
        simp [eLt] at hrel
        linarith
      have hlt_of : ∀ qe, e = some qe → d + p.2.cost < qe := by
        intro qe h
        rw [h] at hrel
        simpa [eLt] using hrel
      refine ⟨?_, rfl, ?_, ?_, ?_, ?_, ?_⟩
      · refine ⟨?_, ?_, ?_, ?_, ?_, ?_, ?_⟩
        · rw [assocSet_keys _ _ _ (by rw [he]; rfl)]
          exact hC.keys
        · intro v q hvq
          rw [hlookup] at hvq
          by_cases hvp : v = p.1
          · rw [if_pos hvp] at hvq
            have h2 : some (d + p.2.cost) = some q := by injection hvq
            have h3 : d + p.2.cost = q := by injection h2
            rw [← h3, hvp]
            exact hwalkp
          · rw [if_neg hvp] at hvq
            exact hC.sound v q hvq
        · rw [hlookup, if_neg (Ne.symm hps)]
          exact hC.src
        · intro dp hdp
          rcases List.mem_append.mp hdp with h1 | h1
          · exact hC.pqWalk dp h1
          · obtain rfl : dp = (d + p.2.cost, p.1) := by simpa using h1
            exact hwalkp
        · intro dp hdp
          rcases List.mem_append.mp hdp with h1 | h1
          · obtain ⟨qv, hq, hle⟩ := hC.pqLe dp h1
            by_cases hdpp : dp.2 = p.1
            · rw [hdpp] at hq
              rw [hq] at he
              have h2 : some qv = e := by injection he
              subst h2
              have := hlt_of qv rfl
              exact ⟨d + p.2.cost, by rw [hlookup, if_pos hdpp], by linarith⟩
            · exact ⟨qv, by rw [hlookup, if_neg hdpp]; exact hq, hle⟩
          · obtain rfl : dp = (d + p.2.cost, p.1) := by simpa using h1
            exact ⟨d + p.2.cost, by rw [hlookup]; simp, le_refl _⟩
        · intro v q hvis hvq
          rw [hlookup] at hvq
          by_cases hvp : v = p.1
          · rw [if_pos hvp] at hvq
            have h2 : some (d + p.2.cost) = some q := by injection hvq
            have h3 : d + p.2.cost = q := by injection h2
            subst h3
            rw [List.mem_append]
            right
            rw [hvp]
            exact List.mem_cons_self _ _
          · rw [if_neg hvp] at hvq
            exact List.mem_append.mpr (Or.inl (hC.pqCover v q hvis hvq))
        · intro dp hdp
          rcases List.mem_append.mp hdp with h1 | h1
          · exact hC.pqIds dp h1
          · obtain rfl : dp = (d + p.2.cost, p.1) := by simpa using h1
            exact target_mem_ids s hp
      · rw [hlookup, if_neg (Ne.symm hpu)]
        exact hu
      · intro w hne hw
        obtain ⟨q, hlq, hminw, hnbr⟩ := hV w hne hw
        have hwp : w ≠ p.1 := by
          intro h
          rw [h, hv2] at hw
          exact Bool.false_ne_true hw
        refine ⟨q, by rw [hlookup, if_neg hwp]; exact hlq, hminw, ?_⟩
        intro p2 hp2
        obtain ⟨qv, hq2, hle2⟩ := hnbr p2 hp2
        by_cases hp2p : p2.1 = p.1
        · rw [hp2p] at hq2
          rw [hq2] at he
          have h2 : some qv = e := by injection he
          subst h2
          have := hlt_of qv rfl
          exact ⟨d + p.2.cost, by rw [hlookup, if_pos hp2p], by linarith⟩
        · exact ⟨qv, by rw [hlookup, if_neg hp2p]; exact hq2, hle2⟩
      · exact ⟨d + p.2.cost, by rw [hlookup]; simp, le_refl _⟩
      · intro w q0 h0
        by_cases hwp : w = p.1
        · rw [hwp] at h0
          rw [h0] at he
          have h2 : some q0 = e := by injection he
          subst h2
          have := hlt_of q0 rfl
          exact ⟨d + p.2.cost, by rw [hlookup, if_pos hwp], le_of_lt this⟩
        · exact ⟨q0, by rw [hlookup, if_neg hwp]; exact h0, le_refl _⟩
      · simp
    · rw [if_neg hrel]
      refine ⟨hC, rfl, hu, fun w hne hw => hV w hne hw, ?_, ?_, by omega⟩
      · rcases e with _ | qe
        · exact absurd (rfl : eLt (some (d + p.2.cost)) none = true) hrel
        · have hle : qe ≤ d + p.2.cost := by
            by_contra hgt
            exact hrel (by simpa [eLt] using not_le.mp hgt)
          exact ⟨qe, he, hle⟩
      · intro w q0 h0
        exact ⟨q0, h0, le_refl _⟩

theorem relaxFold_spec {g : Graph} {s u : Int} {d : ℚ}
    (hnn : NonnegCosts g) (hcl : ClosedAdj g) :
    ∀ (l : List (Int × Edge)) (st : DState),
    (∀ p ∈ l, p ∈ g.getNeighbors u) →
    DCore g s st →
    st.visited u = true →
    st.dist.lookup u = some (some d) →
    IsMinWalk g s u d →
    (∀ w, w ≠ u → st.visited w = true → VisAt g s st w) →
    DCore g s (l.foldl (relaxOne g u) st) ∧
      (l.foldl (relaxOne g u) st).visited = st.visited ∧
      (l.foldl (relaxOne g u) st).dist.lookup u = some (some d) ∧
      (∀ w, w ≠ u → (l.foldl (relaxOne g u) st).visited w = true →
        VisAt g s (l.foldl (relaxOne g u) st) w) ∧
      (∀ p ∈ l, ∃ qv,
        (l.foldl (relaxOne g u) st).dist.lookup p.1 = some (some qv) ∧
        qv ≤ d + p.2.cost) ∧
      (∀ w q0, st.dist.lookup w = some (some q0) →
        ∃ q1, (l.foldl (relaxOne g u) st).dist.lookup w = some (some q1) ∧
          q1 ≤ q0) ∧
      (l.foldl (relaxOne g u) st).pq.length ≤ st.pq.length + l.length := by
  intro l
  induction l with
  | nil =>
      intro st hl hC hvisu hu hmin hV
      exact ⟨hC, rfl, hu, hV, by simp, fun w q0 h0 => ⟨q0, h0, le_refl _⟩,
        by simp⟩
  | cons p rest ih =>
      intro st hl hC hvisu hu hmin hV
      have hp : p ∈ g.getNeighbors u := hl p (List.mem_cons_self _ _)
      obtain ⟨hC1, hvis1, hu1, hV1, hrelax1, hmono1, hlen1⟩ :=
        relaxOne_spec hnn hcl hC hvisu hu hmin hV hp
      have hvisu1 : (relaxOne g u st p).visited u = true := by
        rw [hvis1]; exact hvisu
      obtain ⟨hC2, hvis2, hu2, hV2, hrelax2, hmono2, hlen2⟩ :=
        ih (relaxOne g u st p) (fun q hq => hl q (List.mem_cons_of_mem _ hq))
          hC1 hvisu1 hu1 hmin hV1
      rw [List.foldl_cons]
      refine ⟨hC2, by rw [hvis2, hvis1], hu2, hV2, ?_, ?_, ?_⟩
      · intro q hq
        rcases List.mem_cons.mp hq with rfl | hq2
        · obtain ⟨qv, hqv, hle⟩ := hrelax1
          obtain ⟨q1, hq1, hle1⟩ := hmono2 q.1 qv hqv
          exact ⟨q1, hq1, le_trans hle1 hle⟩
        · exact hrelax2 q hq2
      · intro w q0 h0
        obtain ⟨q1, hq1, hle1⟩ := hmono1 w q0 h0
        obtain ⟨q2, hq2, hle2⟩ := hmono2 w q1 hq1
        exact ⟨q2, hq2, le_trans hle2 hle1⟩
      · simp only [List.length_cons]
        omega

theorem pq_reaches_unvisited {g : Graph} {s : Int} {st : DState}
    (hnn : NonnegCosts g) (hC : DCore g s st)
    (hV : ∀ w, st.visited w = true → VisAt g s st w) :
    ∀ {v : Int} {c : ℚ}, Walk g s v c → st.visited v = false →
      ∃ dp ∈ st.pq, dp.1 ≤ c := by
  intro v c hw
  induction hw with
  | refl =>
      intro huv
      exact ⟨(0, s), hC.pqCover s 0 huv hC.src, le_refl 0⟩
  | @step u c0 p hw2 hp ih =>
      intro huv
      by_cases hx : st.visited u = true
      · obtain ⟨q, hlq, hminx, hnbr⟩ := hV u hx
        obtain ⟨qv, hqv, hle⟩ := hnbr p hp
        have hqc : q ≤ c0 := hminx.2 c0 hw2
        exact ⟨(qv, p.1), hC.pqCover p.1 qv huv hqv, by dsimp; linarith⟩
      · have hx2 : st.visited u = false := Bool.not_eq_true _ |>.mp hx
        obtain ⟨dp, hdp, hle⟩ := ih hx2
        have h0 : 0 ≤ p.2.cost := hnn u p hp
        exact ⟨dp, hdp, by linarith⟩

/-- The full Dijkstra loop invariant: the core clauses plus the certified
clause for every visited node. -/
def DInv (g : Graph) (s : Int) (st : DState) : Prop :=
  DCore g s st ∧ ∀ w, st.visited w = true → VisAt g s st w

/-- Termination potential of the loop: pending queue entries plus the
degrees of the ids that can still be finalised. -/
def dPhi (g : Graph) (s : Int) (st : DState) : Nat :=
  st.pq.length +
    (((dijkstraIds g s).filter (fun w => !st.visited w)).map (degOf g)).sum

theorem sum_filter_erase (f : Int → Nat) {vis : Int → Bool} {u : Int}
    (hvu : vis u = false) :
    ∀ {l : List Int}, l.Nodup → u ∈ l →
    ((l.filter (fun w => !(if w = u then true else vis w))).map f).sum + f u
      = ((l.filter (fun w => !vis w)).map f).sum := by
  intro l
  induction l with
  | nil => intro _ hu; simp at hu
  | cons a rest ih =>
      intro hl hu
      rw [List.nodup_cons] at hl
      rcases List.mem_cons.mp hu with rfl | hmem
      · have hfilters : rest.filter (fun w => !(if w = u then true else vis w))
            = rest.filter (fun w => !vis w) := by
          apply List.filter_congr
          intro x hx
          have hxu : x ≠ u := fun h => hl.1 (h ▸ hx)
          rw [if_neg hxu]
        rw [List.filter_cons, List.filter_cons, hfilters]
        rw [if_neg (by simp), if_pos (by rw [hvu]; rfl)]
        simp only [List.map_cons, List.sum_cons]
        omega
      · have hau : a ≠ u := fun h => hl.1 (h ▸ hmem)
        have hpred : (!(if a = u then true else vis a)) = (!vis a) := by
          rw [if_neg hau]
        rw [List.filter_cons, List.filter_cons, hpred]
        by_cases hva : (!vis a) = true
        · rw [if_pos hva, if_pos hva]
          simp only [List.map_cons, List.sum_cons]
          have := ih hl.2 hmem
          omega
        · rw [if_neg hva, if_neg hva]
          exact ih hl.2 hmem

theorem popMin_none {pq : List (ℚ × Int)} (h : popMin pq = none) :
    pq = [] := by
  rcases pq with _ | ⟨y, l⟩
  · rfl
  · simp [popMin] at h

theorem dijkstraLoop_succ_none {g : Graph} {fuel : Nat} {st : DState}
    (hpop : popMin st.pq = none) :
    dijkstraLoop g (fuel + 1) st = st := by
  rw [dijkstraLoop, hpop]

theorem dijkstraLoop_succ_vis {g : Graph} {fuel : Nat} {st : DState}
    {dq : ℚ} {u : Int} {rest : List (ℚ × Int)}
    (hpop : popMin st.pq = some ((dq, u), rest))
    (hvis : st.visited u = true) :
    dijkstraLoop g (fuel + 1) st = dijkstraLoop g fuel { st with pq := rest } := by
  rw [dijkstraLoop, hpop]
  dsimp only
  rw [if_pos hvis]

theorem dijkstraLoop_succ_unvis {g : Graph} {fuel : Nat} {st : DState}
    {dq : ℚ} {u : Int} {rest : List (ℚ × Int)}
    (hpop : popMin st.pq = some ((dq, u), rest))
    (hvis : st.visited u = false) :
    dijkstraLoop g (fuel + 1) st =
      dijkstraLoop g fuel ((g.getNeighbors u).foldl (relaxOne g u)
        ⟨st.dist, fun x => if x = u then true else st.visited x, rest⟩) := by
  rw [dijkstraLoop, hpop]
  dsimp only
  rw [if_neg (by rw [hvis]; exact Bool.false_ne_true)]

theorem dijkstraLoop_inv {g : Graph} {s : Int}
    (hnn : NonnegCosts g) (hcl : ClosedAdj g) :
    ∀ (fuel : Nat) (st : DState), DInv g s st → dPhi g s st ≤ fuel →
      DInv g s (dijkstraLoop g fuel st) ∧ (dijkstraLoop g fuel st).pq = [] := by
  intro fuel
  induction fuel with
  | zero =>
      intro st hI hphi
      have hlen : st.pq.length = 0 := by
        rw [dPhi] at hphi; omega
      exact ⟨hI, List.length_eq_zero.mp hlen⟩
  | succ fuel ih =>
      intro st hI hphi
      obtain ⟨hC, hV⟩ := hI
      rcases hpop : popMin st.pq with _ | ⟨⟨dq, u⟩, rest⟩
      · rw [dijkstraLoop_succ_none hpop]
        exact ⟨⟨hC, hV⟩, popMin_none hpop⟩
      · obtain ⟨hmem, hrest, hminpq⟩ := popMin_spec hpop
        have hrestlen : rest.length + 1 = st.pq.length := by
          rw [hrest]; exact removeFirst_length hmem
        by_cases hvis : st.visited u = true
        · rw [dijkstraLoop_succ_vis hpop hvis]
          apply ih
          · refine ⟨⟨hC.keys, hC.sound, hC.src, ?_, ?_, ?_, ?_⟩, ?_⟩
            · intro dp hdp
              have hdp2 : dp ∈ removeFirst (dq, u) st.pq := by
                rw [← hrest]; exact hdp
              exact hC.pqWalk dp (removeFirst_subset dp hdp2)
            · intro dp hdp
              have hdp2 : dp ∈ removeFirst (dq, u) st.pq := by
                rw [← hrest]; exact hdp
              exact hC.pqLe dp (removeFirst_subset dp hdp2)
            · intro v q hv hq
              have hne : (q, v) ≠ (dq, u) := by
                intro h
                injection h with h1 h2
                rw [h2] at hv
                exact Bool.false_ne_true (hvis.symm.trans hv).symm
              show (q, v) ∈ rest
              rw [hrest]
              exact mem_removeFirst_of_ne (hC.pqCover v q hv hq) hne
            · intro dp hdp
              have hdp2 : dp ∈ removeFirst (dq, u) st.pq := by
                rw [← hrest]; exact hdp
              exact hC.pqIds dp (removeFirst_subset dp hdp2)
            · intro w hw
              exact hV w hw
          · show rest.length +
              (((dijkstraIds g s).filter
                (fun w => !st.visited w)).map (degOf g)).sum ≤ fuel
            rw [dPhi] at hphi
            omega
        · have hvfalse : st.visited u = false := Bool.not_eq_true _ |>.mp hvis
          rw [dijkstraLoop_succ_unvis hpop hvfalse]
          obtain ⟨qv, hqv, hqvle⟩ := hC.pqLe (dq, u) hmem
          have hcov : (qv, u) ∈ st.pq := hC.pqCover u qv hvfalse hqv
          have hqeq : qv = dq := by
            have hmin1 := hminpq (qv, u) hcov
            rw [pairLt_false_iff] at hmin1
            rcases hmin1 with h | ⟨h, _⟩
            · dsimp at h
              exact absurd hqvle (not_le.mpr h)
            · exact h
          subst hqeq
          have hminu : IsMinWalk g s u qv := by
            refine ⟨hC.sound u qv hqv, ?_⟩
            intro c hw
            obtain ⟨dp, hdp, hdple⟩ := pq_reaches_unvisited hnn hC hV hw hvfalse
            have hm := hminpq dp hdp
            rw [pairLt_false_iff] at hm
            rcases hm with h | ⟨h, _⟩
            · dsimp at h; linarith
            · dsimp at h; linarith
          have hC1 : DCore g s
              ⟨st.dist, fun x => if x = u then true else st.visited x, rest⟩ := by
            refine ⟨hC.keys, hC.sound, hC.src, ?_, ?_, ?_, ?_⟩
            · intro dp hdp
              have hdp2 : dp ∈ removeFirst (qv, u) st.pq := by
                rw [← hrest]; exact hdp
              exact hC.pqWalk dp (removeFirst_subset dp hdp2)
            · intro dp hdp
              have hdp2 : dp ∈ removeFirst (qv, u) st.pq := by
                rw [← hrest]; exact hdp
              exact hC.pqLe dp (removeFirst_subset dp hdp2)
            · intro v q hv hq
              have hv2 : (if v = u then true else st.visited v) = false := hv
              have hvu : v ≠ u := by
                intro h
                rw [if_pos h] at hv2
                exact absurd hv2 (by simp)
              rw [if_neg hvu] at hv2
              have hne : (q, v) ≠ (qv, u) := by
                intro h
                injection h with h1 h2
                exact hvu h2
              show (q, v) ∈ rest
              rw [hrest]
              exact mem_removeFirst_of_ne (hC.pqCover v q hv2 hq) hne
            · intro dp hdp
              have hdp2 : dp ∈ removeFirst (qv, u) st.pq := by
                rw [← hrest]; exact hdp
              exact hC.pqIds dp (removeFirst_subset dp hdp2)
          have hvisu1 : ((⟨st.dist,
              fun x => if x = u then true else st.visited x, rest⟩ :
                DState)).visited u = true := by
            show (if u = u then true else st.visited u) = true
            rw [if_pos rfl]
          have hV1 : ∀ w, w ≠ u →
              ((⟨st.dist, fun x => if x = u then true else st.visited x,
                rest⟩ : DState)).visited w = true →
              VisAt g s ⟨st.dist,
                fun x => if x = u then true else st.visited x, rest⟩ w := by
            intro w hne hw
            have hw2 : st.visited w = true := by
              have : (if w = u then true else st.visited w) = true := hw
              rw [if_neg hne] at this
              exact this
            exact hV w hw2
          obtain ⟨hC2, hvis2, hu2, hV2, hrelax2, hmono2, hlen2⟩ :=
            relaxFold_spec hnn hcl (g.getNeighbors u)
              ⟨st.dist, fun x => if x = u then true else st.visited x, rest⟩
              (fun p hp => hp) hC1 hvisu1 hqv hminu hV1
          have hVall : ∀ w,
              ((g.getNeighbors u).foldl (relaxOne g u)
                ⟨st.dist, fun x => if x = u then true else st.visited x,
                  rest⟩).visited w = true →
              VisAt g s ((g.getNeighbors u).foldl (relaxOne g u)
                ⟨st.dist, fun x => if x = u then true else st.visited x,
                  rest⟩) w := by
            intro w hw
            by_cases hwu : w = u
            · subst hwu
              exact ⟨qv, hu2, hminu, hrelax2⟩
            · exact hV2 w hwu hw
          apply ih
          · exact ⟨hC2, hVall⟩
          · have hu_ids : u ∈ dijkstraIds g s := hC.pqIds (qv, u) hmem
            have hnd : (dijkstraIds g s).Nodup := by
              rw [dijkstraIds]; exact List.nodup_dedup _
            have hsum := sum_filter_erase (degOf g) hvfalse hnd hu_ids
            rw [dPhi, hvis2]
            rw [dPhi] at hphi
            have hdeg : (g.getNeighbors u).length = degOf g u := rfl
            have hfil : ((dijkstraIds g s).filter
                (fun w => !(⟨st.dist,
                  fun x => if x = u then true else st.visited x, rest⟩ :
                    DState).visited w)).map (degOf g)
                = ((dijkstraIds g s).filter
                  (fun w => !(if w = u then true else st.visited w))).map
                    (degOf g) := rfl
            rw [hfil]
            have hlen2b : ((g.getNeighbors u).foldl (relaxOne g u)
                ⟨st.dist, fun x => if x = u then true else st.visited x,
                  rest⟩).pq.length ≤ rest.length + degOf g u := hlen2
            omega


theorem lookup_initMap {ids : List Int} {x : Int} {e : EDist}
    (h : (ids.map (fun i => (i, (none : EDist)))).lookup x = some e) :
    e = none := by
  induction ids with
  | nil => simp [List.lookup] at h
  | cons a rest ih =>
      rw [List.map_cons, lookup_cons] at h
      by_cases hx : x = a
      · rw [if_pos hx] at h
        injection h with h2
        exact h2.symm
      · rw [if_neg hx] at h
        exact ih h

theorem lookup_initMap_mem {ids : List Int} {x : Int} (h : x ∈ ids) :
    (ids.map (fun i => (i, (none : EDist)))).lookup x = some none := by
  induction ids with
  | nil => simp at h
  | cons a rest ih =>
      rw [List.map_cons, lookup_cons]
      by_cases hx : x = a
      · rw [if_pos hx]
      · rw [if_neg hx]
        exact ih (List.mem_cons.mp h |>.resolve_left hx)

theorem initMap_keys (ids : List Int) :
    (ids.map (fun i => (i, (none : EDist)))).map Prod.fst = ids := by
  induction ids with
  | nil => rfl
  | cons a rest ih => simp [ih]

theorem dijkstra_init_inv {g : Graph} {s : Int} (hs : s ∈ g.getAllNodeIds) :
    DInv g s ⟨assocSet (g.getAllNodeIds.map
        (fun nodeId => (nodeId, (none : EDist)))) s (some 0),
      fun _ => false, [(0, s)]⟩ := by
  have hbase : (g.getAllNodeIds.map
      (fun nodeId => (nodeId, (none : EDist)))).lookup s = some none :=
    lookup_initMap_mem hs
  have hlk : ∀ x, (assocSet (g.getAllNodeIds.map
      (fun nodeId => (nodeId, (none : EDist)))) s (some 0)).lookup x =
      if x = s then some (some 0)
      else (g.getAllNodeIds.map
        (fun nodeId => (nodeId, (none : EDist)))).lookup x :=
    fun x => lookup_assocSet _ _ _ _
  refine ⟨⟨?_, ?_, ?_, ?_, ?_, ?_, ?_⟩, ?_⟩
  · rw [assocSet_keys _ _ _ (by rw [hbase]; rfl)]
    exact initMap_keys _
  · intro v q hvq
    rw [hlk] at hvq
    by_cases hv : v = s
    · rw [if_pos hv] at hvq
      have h2 : some (0 : ℚ) = some q := by injection hvq
      have h3 : (0 : ℚ) = q := by injection h2
      rw [← h3, hv]
      exact Walk.refl
    · rw [if_neg hv] at hvq
      exact absurd (lookup_initMap hvq) (by simp)
  · rw [hlk, if_pos rfl]
  · intro dp hdp
    have h1 : dp = ((0 : ℚ), s) := by simpa using hdp
    rw [h1]
    exact Walk.refl
  · intro dp hdp
    have h1 : dp = ((0 : ℚ), s) := by simpa using hdp
    rw [h1]
    exact ⟨0, by rw [hlk, if_pos rfl], le_refl _⟩
  · intro v q hv hq
    rw [hlk] at hq
    by_cases hvs : v = s
    · rw [if_pos hvs] at hq
      have h2 : some (0 : ℚ) = some q := by injection hq
      have h3 : (0 : ℚ) = q := by injection h2
      rw [hvs, ← h3]
      exact List.mem_cons_self _ _
    · rw [if_neg hvs] at hq
      exact absurd (lookup_initMap hq) (by simp)
  · intro dp hdp
    have h1 : dp = ((0 : ℚ), s) := by simpa using hdp
    rw [h1]
    show s ∈ dijkstraIds g s
    rw [dijkstraIds, List.mem_dedup]
    exact List.mem_cons_self _ _
  · intro w hw
    exact absurd hw (by simp)

theorem dPhi_init (g : Graph) (s : Int) :
    dPhi g s ⟨assocSet (g.getAllNodeIds.map
        (fun nodeId => (nodeId, (none : EDist)))) s (some 0),
      fun _ => false, [(0, s)]⟩ = dijkstraFuel g s := by
  rw [dPhi, dijkstraFuel]
  have h1 : ((dijkstraIds g s).filter (fun w =>
      !((⟨assocSet (g.getAllNodeIds.map
          (fun nodeId => (nodeId, (none : EDist)))) s (some 0),
        fun _ => false, [(0, s)]⟩ : DState)).visited w)) = dijkstraIds g s :=
    List.filter_eq_self.mpr (fun a _ => rfl)
  rw [h1]
  rfl

/-- What `dijkstra` actually guarantees on a graph with non-negative costs
and adjacency targets all declared as nodes: full key set, zero at the
source, soundness of every finite entry, and minimality for every
reachable id. -/
theorem dijkstra_correct {g : Graph} {s : Int} (hnn : NonnegCosts g)
    (hcl : ClosedAdj g) (hs : s ∈ g.getAllNodeIds) :
    (dijkstra g s).map Prod.fst = g.getAllNodeIds ∧
    (dijkstra g s).lookup s = some (some 0) ∧
    (∀ x q, (dijkstra g s).lookup x = some (some q) → Walk g s x q) ∧
    (∀ x, Reachable g s x →
      ∃ q, (dijkstra g s).lookup x = some (some q) ∧ IsMinWalk g s x q) := by
  obtain ⟨⟨hC, hV⟩, hpq⟩ := dijkstraLoop_inv hnn hcl (dijkstraFuel g s)
    ⟨assocSet (g.getAllNodeIds.map
        (fun nodeId => (nodeId, (none : EDist)))) s (some 0),
      fun _ => false, [(0, s)]⟩
    (dijkstra_init_inv hs) (le_of_eq (dPhi_init g s))
  have hd : dijkstra g s = (dijkstraLoop g (dijkstraFuel g s)
      ⟨assocSet (g.getAllNodeIds.map
          (fun nodeId => (nodeId, (none : EDist)))) s (some 0),
        fun _ => false, [(0, s)]⟩).dist := rfl
  rw [hd]
  refine ⟨hC.keys, hC.src, hC.sound, ?_⟩
  rintro x ⟨c, hw⟩
  by_cases hvx : (dijkstraLoop g (dijkstraFuel g s)
      ⟨assocSet (g.getAllNodeIds.map
          (fun nodeId => (nodeId, (none : EDist)))) s (some 0),
        fun _ => false, [(0, s)]⟩).visited x = true
  · obtain ⟨q, hq, hminq, _⟩ := hV x hvx
    exact ⟨q, hq, hminq⟩
  · obtain ⟨dp, hdp, _⟩ := pq_reaches_unvisited hnn hC hV hw
      (Bool.not_eq_true _ |>.mp hvx)
    rw [hpq] at hdp
    simp at hdp

theorem nonnegCosts_of_adj {g : Graph}
    (h : ∀ kl ∈ g.adj, ∀ p ∈ kl.2, 0 ≤ p.2.cost) : NonnegCosts g := by
  intro u p hp
  rw [Graph.getNeighbors] at hp
  rcases hl : g.adj.lookup u with _ | l
  · rw [hl] at hp
    simp at hp
  · rw [hl] at hp
    exact h (u, l) (lookup_mem hl) p hp

theorem closedAdj_of_adj {g : Graph}
    (h : ∀ kl ∈ g.adj, ∀ p ∈ kl.2, p.1 ∈ g.getAllNodeIds) : ClosedAdj g := by
  intro u p hp
  rw [Graph.getNeighbors] at hp
  rcases hl : g.adj.lookup u with _ | l
  · rw [hl] at hp
    simp at hp
  · rw [hl] at hp
    exact h (u, l) (lookup_mem hl) p hp

/-- Two declared nodes joined by one edge of cost 2. -/
def gL : Graph :=
  ((emptyGraph.addNode ⟨0, 0, 0⟩).addNode ⟨1, 0, 0⟩).addEdge ⟨0, 1, 2, 1⟩

/-- Counterexample graph for C4: the intermediate endpoint `1` of the two
edges is never passed to `addNode`, so it is absent from `nodes` (and from
the initialised distance map) although it carries adjacency entries. -/
def gPhantom : Graph :=
  (((emptyGraph.addNode ⟨0, 0, 0⟩).addNode ⟨2, 1, 0⟩).addEdge
    ⟨0, 1, 1, 1⟩).addEdge ⟨1, 2, 1, 1⟩

/-- C4 counterexample: `gPhantom` satisfies every hypothesis of the claim
(all edge costs non-negative, source `0` present in the graph), the
location id `2` is reachable from `0` over the road network, and yet
`dijkstra` leaves `2` at the +infinity sentinel: during relaxation
`distMap[1]` is default-inserted as `0.0` by `operator[]`, so the edge
into the undeclared id `1` never relaxes and propagation stops there. -/
theorem dijkstra_misses_reachable_node :
    NonnegCosts gPhantom ∧ (0 : Int) ∈ gPhantom.getAllNodeIds ∧
    (2 : Int) ∈ gPhantom.getAllNodeIds ∧ Reachable gPhantom 0 2 ∧
    (dijkstra gPhantom 0).lookup 2 = some none := by
  refine ⟨nonnegCosts_of_adj (by decide), by decide, by decide,
    ⟨0 + 1 + 1, ?_⟩, ?_⟩
  · have h1 : ((1 : Int), (⟨0, 1, 1, 1⟩ : Edge)) ∈ gPhantom.getNeighbors 0 := by
      decide
    have h2 : ((2 : Int), (⟨1, 2, 1, 1⟩ : Edge)) ∈ gPhantom.getNeighbors 1 := by
      decide
    exact Walk.step (Walk.step Walk.refl h1) h2
  · norm_num [dijkstra, dijkstraLoop, dijkstraFuel, dijkstraIds, degOf, popMin,
      pqMinFrom, removeFirst, relaxOne, dmGetD, assocSet, eLt, pairLt,
      Graph.getNeighbors, Graph.getAllNodeIds, gPhantom, Graph.addNode,
      Graph.addEdge, emptyGraph, adjEnsure, adjAppend, List.lookup, List.dedup,
      List.flatMap]
    rfl

/-- C4 (amended): on a graph with non-negative edge costs in which every
adjacency target is itself a declared node, `dijkstra g s` from a declared
source returns a map with an entry for every location id, maps `s` to `0`,
every finite entry is non-negative, every id unreachable from `s` is left
at the +infinity sentinel, and every reachable id is mapped to its minimum
cumulative road cost from `s`.  (The closed-adjacency hypothesis is what
the original claim is missing — see `dijkstra_misses_reachable_node`.) -/
theorem dijkstra_spec (g : Graph) (s : Int) (hnn : NonnegCosts g)
    (hcl : ClosedAdj g) (hs : s ∈ g.getAllNodeIds) :
    (∀ x ∈ g.getAllNodeIds, ∃ e, (dijkstra g s).lookup x = some e) ∧
    (dijkstra g s).lookup s = some (some 0) ∧
    (∀ x q, (dijkstra g s).lookup x = some (some q) → 0 ≤ q) ∧
    (∀ x ∈ g.getAllNodeIds, ¬ Reachable g s x →
      (dijkstra g s).lookup x = some none) ∧
    (∀ x, Reachable g s x →
      ∃ q, (dijkstra g s).lookup x = some (some q) ∧ IsMinWalk g s x q) := by
  obtain ⟨hkeys, hsrc, hsound, hreach⟩ := dijkstra_correct hnn hcl hs
  refine ⟨?_, hsrc, ?_, ?_, hreach⟩
  · intro x hx
    exact mem_keys_lookup (by rw [hkeys]; exact hx)
  · intro x q hq
    exact walk_cost_nonneg hnn (hsound x q hq)
  · intro x hx hnr
    obtain ⟨e, he⟩ := mem_keys_lookup (m := dijkstra g s) (x := x)
      (by rw [hkeys]; exact hx)
    rcases e with _ | q
    · exact he
    · exact absurd ⟨q, hsound x q he⟩ hnr

/-- C4 witness: the amended theorem applied to the concrete graph `gL`
with source 0; node 1 is reachable, so it gets a finite minimal value. -/
theorem dijkstra_spec_witness :
    (dijkstra gL 0).lookup 0 = some (some 0) ∧
    (∃ q, (dijkstra gL 0).lookup 1 = some (some q) ∧ IsMinWalk gL 0 1 q) := by
  have h := dijkstra_spec gL 0 (nonnegCosts_of_adj (by decide))
    (closedAdj_of_adj (by decide)) (by decide)
  refine ⟨h.2.1, h.2.2.2.2 1 ⟨0 + 2, ?_⟩⟩
  have h1 : ((1 : Int), (⟨0, 1, 2, 1⟩ : Edge)) ∈ gL.getNeighbors 0 := by
    decide
  exact Walk.step Walk.refl h1

/-- Following `cameFrom` links from `v` reaches `w`, visiting exactly the
nodes of `l` on the way (`v` included, `w` excluded). -/
inductive Seg (cf : List (Int × Int)) : Int → Int → List Int → Prop where
  | zero {v : Int} : Seg cf v v []
  | succ {v u w : Int} {l : List Int} :
      cf.lookup v = some u → Seg cf u w l → Seg cf v w (v :: l)

theorem seg_head {cf : List (Int × Int)} {v w : Int} {l : List Int}
    (h : Seg cf v w l) : (v = w ∧ l = []) ∨ ∃ l2, l = v :: l2 := by
  cases h with
  | zero => exact Or.inl ⟨rfl, rfl⟩
  | succ hlk hs => exact Or.inr ⟨_, rfl⟩

theorem seg_lift {cf : List (Int × Int)} {v w v0 p0 : Int} {l : List Int}
    (hs : Seg cf v w l) (hv0 : v0 ∉ l) :
    Seg (assocSet cf v0 p0) v w l := by
  induction hs with
  | zero => exact Seg.zero
  | @succ v u w l hlk hs2 ih =>
      have hne : v ≠ v0 := fun h => hv0 (h ▸ List.mem_cons_self _ _)
      refine Seg.succ ?_ (ih (fun hx => hv0 (List.mem_cons_of_mem _ hx)))
      rw [lookup_assocSet, if_neg hne]
      exact hlk

theorem seg_glue {cf : List (Int × Int)} {v m w : Int} {l1 l2 : List Int}
    (h1 : Seg cf v m l1) (h2 : Seg cf m w l2) :
    Seg cf v w (l1 ++ l2) := by
  induction h1 with
  | zero => simpa using h2
  | succ hlk hs ih => exact Seg.succ hlk (ih h2)

theorem seg_split {cf : List (Int × Int)} {v w v0 : Int} {l : List Int}
    (hs : Seg cf v w l) (hv0 : v0 ∈ l) :
    ∃ l1 l2, l = l1 ++ l2 ∧ Seg cf v v0 l1 ∧ Seg cf v0 w l2 := by
  induction hs with
  | zero => simp at hv0
  | @succ v u w l hlk hs2 ih =>
      by_cases h : v0 = v
      · subst h
        exact ⟨[], v0 :: l, rfl, Seg.zero, Seg.succ hlk hs2⟩
      · have hv0l : v0 ∈ l := (List.mem_cons.mp hv0).resolve_left h
        obtain ⟨l1, l2, heq, hseg1, hseg2⟩ := ih hv0l
        exact ⟨v :: l1, l2, by rw [heq]; rfl, Seg.succ hlk hseg1, hseg2⟩

/-- The telescoping inequality the A* relaxation maintains on every
predecessor link. -/
def AJ (g : Graph) (gs : List (Int × EDist)) (cf : List (Int × Int)) : Prop :=
  ∀ v u, cf.lookup v = some u → ∃ qv qu e,
    gs.lookup v = some (some qv) ∧ gs.lookup u = some (some qu) ∧
    ((v, e) ∈ g.getNeighbors u) ∧ qu + e.cost ≤ qv

theorem seg_upper {g : Graph} {gs : List (Int × EDist)}
    {cf : List (Int × Int)} (hnn : NonnegCosts g) (hJ : AJ g gs cf) :
    ∀ {v w : Int} {l : List Int}, Seg cf v w l →
      ∀ qv, gs.lookup v = some (some qv) →
      ∀ x ∈ l, ∃ qx, gs.lookup x = some (some qx) ∧ qx ≤ qv := by
  intro v w l hs
  induction hs with
  | zero => intro qv hqv x hx; simp at hx
  | @succ v u w l hlk hs2 ih =>
      intro qv hqv x hx
      obtain ⟨qv2, qu, e, hv2, hu2, he, hle⟩ := hJ v u hlk
      have hq : qv2 = qv := by
        rw [hqv] at hv2
        have h2 : some qv = some qv2 := by injection hv2
        have h3 : qv = qv2 := by injection h2
        exact h3.symm
      have hcost : 0 ≤ e.cost := hnn u (v, e) he
      rcases List.mem_cons.mp hx with rfl | hx2
      · exact ⟨qv, hqv, le_refl _⟩
      · obtain ⟨qx, hqx, hxle⟩ := ih qu hu2 x hx2
        exact ⟨qx, hqx, by linarith⟩

theorem seg_lower {g : Graph} {gs : List (Int × EDist)}
    {cf : List (Int × Int)} (hnn : NonnegCosts g) (hJ : AJ g gs cf) :
    ∀ {v w : Int} {l : List Int}, Seg cf v w l →
      ∀ x ∈ l, ∃ qx qw, gs.lookup x = some (some qx) ∧
        gs.lookup w = some (some qw) ∧ qw ≤ qx := by
  intro v w l hs
  induction hs with
  | zero => intro x hx; simp at hx
  | @succ v u w l hlk hs2 ih =>
      intro x hx
      obtain ⟨qv, qu, e, hv2, hu2, he, hle⟩ := hJ v u hlk
      have hcost : 0 ≤ e.cost := hnn u (v, e) he
      rcases List.mem_cons.mp hx with rfl | hx2
      · cases hs2 with
        | zero => exact ⟨qv, qu, hv2, hu2, by linarith⟩
        | @succ u u2 l2 hlk2 hs3 =>
            obtain ⟨qx, qw, hqx, hqw, hwle⟩ := ih u (List.mem_cons_self _ _)
            have hqxu : qu = qx := by
              rw [hu2] at hqx
              have h2 : some qu = some qx := by injection hqx
              injection h2
            exact ⟨qv, qw, hv2, hqw, by linarith⟩
      · exact ih x hx2

theorem getEdgeCost_first {g : Graph} {u v : Int}
    (h : ∃ e, ((v : Int), e) ∈ g.getNeighbors u) :
    ∃ e2, ((v : Int), e2) ∈ g.getNeighbors u ∧
      g.getEdgeCost u v = e2.cost := by
  obtain ⟨e, he⟩ := h
  rcases hf : (g.getNeighbors u).find? (fun p => p.1 == v) with _ | p
  · have h2 := List.find?_eq_none.mp hf (v, e) he
    simp at h2
  · have hp1 : p.1 = v := by simpa using List.find?_some hf
    refine ⟨p.2, ?_, ?_⟩
    · rw [← hp1]
      exact List.mem_of_find?_eq_some hf
    · rw [Graph.getEdgeCost, hf]

theorem sumEdgeCosts_append_last {g : Graph} {u v : Int} :
    ∀ {xs : List Int}, xs.getLast? = some u →
    sumEdgeCosts g (xs ++ [v]) = sumEdgeCosts g xs + g.getEdgeCost u v := by
  intro xs
  induction xs with
  | nil => intro h; simp at h
  | cons a rest ih =>
      intro h
      cases rest with
      | nil =>
          have hu : a = u := by simpa using h
          subst hu
          simp [sumEdgeCosts, routePairs]
      | cons b rest2 =>
          have h2 : (b :: rest2).getLast? = some u := by
            rw [← h, List.getLast?_cons_cons]
          have ih2 := ih h2
          have hstep1 : sumEdgeCosts g ((a :: b :: rest2) ++ [v]) =
              g.getEdgeCost a b + sumEdgeCosts g ((b :: rest2) ++ [v]) := by
            simp [sumEdgeCosts, routePairs]
          have hstep2 : sumEdgeCosts g (a :: b :: rest2) =
              g.getEdgeCost a b + sumEdgeCosts g (b :: rest2) := by
            simp [sumEdgeCosts, routePairs]
          rw [hstep1, hstep2, ih2]
          ring

theorem seg_walk {g : Graph} {cf : List (Int × Int)}
    (hedge : ∀ v u, cf.lookup v = some u →
      ∃ e, ((v : Int), e) ∈ g.getNeighbors u) :
    ∀ {v w : Int} {l : List Int}, Seg cf v w l →
      Walk g w v (sumEdgeCosts g ((l ++ [w]).reverse)) := by
  intro v w l hs
  induction hs with
  | @zero v =>
      have h0 : sumEdgeCosts g ((([] : List Int) ++ [v]).reverse) = 0 := rfl
      rw [h0]
      exact Walk.refl
  | @succ v u w l hlk hs2 ih =>
      have hlast : ((l ++ [w]).reverse).getLast? = some u := by
        rw [List.getLast?_reverse]
        rcases seg_head hs2 with ⟨heq, rfl⟩ | ⟨l2, rfl⟩
        · rw [heq]; rfl
        · rfl
      have hpath : (((v :: l) ++ [w]).reverse) = (l ++ [w]).reverse ++ [v] := by
        simp
      rw [hpath, sumEdgeCosts_append_last hlast]
      obtain ⟨e2, he2, hce⟩ := getEdgeCost_first (hedge v u hlk)
      rw [hce]
      exact Walk.step ih he2

theorem reconstructFrom_succ (cf : List (Int × Int)) (fuel : Nat)
    (node : Int) :
    reconstructFrom cf (fuel + 1) node =
      if node = -1 then []
      else node :: reconstructFrom cf fuel
        (match cf.lookup node with | some p => p | none => -1) := rfl

theorem reconstructFrom_neg1 (cf : List (Int × Int)) :
    ∀ fuel, reconstructFrom cf fuel (-1) = []
  | 0 => rfl
  | fuel + 1 => by rw [reconstructFrom_succ, if_pos rfl]

theorem reconstructFrom_seg {cf : List (Int × Int)} {s : Int}
    (hroot : cf.lookup s = none) (hsne : s ≠ -1) :
    ∀ {v : Int} {l : List Int}, Seg cf v s l → (∀ x ∈ l, x ≠ -1) →
      ∀ fuel, l.length + 2 ≤ fuel →
      reconstructFrom cf fuel v = l ++ [s] := by
  intro v l hs
  induction hs with
  | @zero v =>
      intro _ fuel hfuel
      rcases fuel with _ | fuel1
      · omega
      · rw [reconstructFrom_succ, if_neg hsne, hroot]
        rw [reconstructFrom_neg1]
        rfl
  | @succ v u w l hlk hs2 ih =>
      intro hne fuel hfuel
      rcases fuel with _ | fuel1
      · omega
      · have hvne : v ≠ -1 := hne v (List.mem_cons_self _ _)
        rw [reconstructFrom_succ, if_neg hvne, hlk]
        rw [ih hroot hsne (fun x hx => hne x (List.mem_cons_of_mem _ hx)) fuel1
          (by simp only [List.length_cons] at hfuel; omega)]
        rfl

theorem assocSet_keys_sub {β : Type} :
    ∀ (m : List (Int × β)) (k x : Int) (b : β),
    x ∈ (assocSet m k b).map Prod.fst → x ∈ m.map Prod.fst ∨ x = k := by
  intro m
  induction m with
  | nil =>
      intro k x b hx
      simp [assocSet] at hx
      exact Or.inr hx
  | cons hd rest ih =>
      intro k x b hx
      obtain ⟨k2, b2⟩ := hd
      by_cases h2 : k2 = k
      · subst h2
        simp only [assocSet, if_pos rfl, List.map_cons] at hx
        rcases List.mem_cons.mp hx with h3 | h3
        · exact Or.inr h3
        · exact Or.inl (by rw [List.map_cons]; exact List.mem_cons_of_mem _ h3)
      · simp only [assocSet, if_neg h2, List.map_cons] at hx
        rcases List.mem_cons.mp hx with h3 | h3
        · exact Or.inl (by rw [List.map_cons, h3]; exact List.mem_cons_self _ _)
        · rcases ih k x b h3 with h4 | h4
          · exact Or.inl (by rw [List.map_cons]; exact List.mem_cons_of_mem _ h4)
          · exact Or.inr h4

theorem lookup_isSome_keys {β : Type} {m : List (Int × β)} {x : Int}
    (h : (m.lookup x).isSome) : x ∈ m.map Prod.fst := by
  rcases hl : m.lookup x with _ | b
  · rw [hl] at h
    simp at h
  · exact List.mem_map_of_mem _ (lookup_mem hl)

/-- The A* loop invariant: gScore keys and soundness, the telescoping link
inequality, rooted acyclic predecessor chains, and queue bookkeeping. -/
structure AInv (g : Graph) (s : Int) (st : AState) : Prop where
  keysG : st.gScore.map Prod.fst = g.getAllNodeIds
  soundG : ∀ v q, st.gScore.lookup v = some (some q) → Walk g s v q
  srcG : st.gScore.lookup s = some (some 0)
  linkJ : AJ g st.gScore st.cameFrom
  chainD : ∀ v, (st.cameFrom.lookup v).isSome →
    ∃ l, Seg st.cameFrom v s l ∧ l.Nodup ∧
      ∀ x ∈ l, (st.cameFrom.lookup x).isSome
  rootC : st.cameFrom.lookup s = none
  keysK : ∀ x ∈ st.cameFrom.map Prod.fst, x ∈ g.getAllNodeIds
  pqP : ∀ dp ∈ st.pq, dp.2 ∈ g.getAllNodeIds ∧
    (dp.2 = s ∨ (st.cameFrom.lookup dp.2).isSome)

theorem astarRelax_spec {g : Graph} {s t current : Int} {st : AState}
    (hnn : NonnegCosts g) (hcl : ClosedAdj g) (hA : AInv g s st)
    (hcur : current ∈ g.getAllNodeIds)
    (hcs : current = s ∨ (st.cameFrom.lookup current).isSome)
    {nb : Int × Edge} (hnb : nb ∈ g.getNeighbors current) :
    AInv g s (astarRelax g t current st nb) ∧
      (astarRelax g t current st nb).cameFrom.lookup current =
        st.cameFrom.lookup current ∧
      (astarRelax g t current st nb).gScore.lookup current =
        st.gScore.lookup current := by
  obtain ⟨e, he⟩ := mem_keys_lookup (m := st.gScore) (x := current)
    (by rw [hA.keysG]; exact hcur)
  rcases e with _ | gc
  · have heq : astarRelax g t current st nb = st := by
      rw [astarRelax, dmGetD_present he]
    rw [heq]
    exact ⟨hA, rfl, rfl⟩
  · have hwalkc : Walk g s current gc := hA.soundG current gc he
    have hgc0 : 0 ≤ gc := walk_cost_nonneg hnn hwalkc
    have hcost : 0 ≤ nb.2.cost := hnn current nb hnb
    have hnb1 : nb.1 ∈ g.getAllNodeIds := hcl current nb hnb
    obtain ⟨e2, he2⟩ := mem_keys_lookup (m := st.gScore) (x := nb.1)
      (by rw [hA.keysG]; exact hnb1)
    have hunfold : astarRelax g t current st nb =
        if eLt (some (gc + nb.2.cost)) e2 then
          { gScore := assocSet st.gScore nb.1 (some (gc + nb.2.cost))
            cameFrom := assocSet st.cameFrom nb.1 current
            visited := st.visited
            pq := st.pq ++ [(gc + nb.2.cost + heurA t nb.1, nb.1)] }
        else st := by
      rw [astarRelax]
      simp only [dmGetD_present he, dmGetD_present he2]
    rw [hunfold]
    by_cases hrel : eLt (some (gc + nb.2.cost)) e2 = true
    · rw [if_pos hrel]
      have hlt_of : ∀ qe, e2 = some qe → gc + nb.2.cost < qe := by
        intro qe h
        rw [h] at hrel
        simpa [eLt] using hrel
      have hnbcur : nb.1 ≠ current := by
        intro h
        rw [h, he] at he2
        have h2 : some gc = e2 := by injection he2
        have := hlt_of gc h2.symm
        linarith
      have hnbs : nb.1 ≠ s := by
        intro h
        rw [h, hA.srcG] at he2
        have h2 : some (0 : ℚ) = e2 := by injection he2
        have := hlt_of 0 h2.symm
        linarith
      have hlkg : ∀ x,
          (assocSet st.gScore nb.1 (some (gc + nb.2.cost))).lookup x =
          if x = nb.1 then some (some (gc + nb.2.cost))
          else st.gScore.lookup x :=
        fun x => lookup_assocSet _ _ _ _
      have hlkc : ∀ x, (assocSet st.cameFrom nb.1 current).lookup x =
          if x = nb.1 then some current else st.cameFrom.lookup x :=
        fun x => lookup_assocSet _ _ _ _
      have hwalknb : Walk g s nb.1 (gc + nb.2.cost) := hwalkc.step hnb
      obtain ⟨lc, hcseg, hcnd, hckeys, hcupper⟩ :
          ∃ lc, Seg st.cameFrom current s lc ∧ lc.Nodup ∧
            (∀ x ∈ lc, (st.cameFrom.lookup x).isSome) ∧
            (∀ x ∈ lc, ∃ qx, st.gScore.lookup x = some (some qx) ∧
              qx ≤ gc) := by
        rcases hcs with rfl | hsome
        · exact ⟨[], Seg.zero, List.nodup_nil, by simp, by simp⟩
        · obtain ⟨lc, hseg, hnd, hkeys2⟩ := hA.chainD current hsome
          exact ⟨lc, hseg, hnd, hkeys2,
            fun x hx => seg_upper hnn hA.linkJ hseg gc he x hx⟩
      have hnb_not_lc : nb.1 ∉ lc := by
        intro hmem2
        obtain ⟨qx, hqx, hxle⟩ := hcupper nb.1 hmem2
        rw [he2] at hqx
        have h2 : e2 = some qx := by injection hqx
        have := hlt_of qx h2
        linarith
      have hnewseg : Seg (assocSet st.cameFrom nb.1 current) nb.1 s
          (nb.1 :: lc) :=
        Seg.succ (by rw [hlkc nb.1, if_pos rfl]) (seg_lift hcseg hnb_not_lc)
      refine ⟨⟨?_, ?_, ?_, ?_, ?_, ?_, ?_, ?_⟩, ?_, ?_⟩
      · show (assocSet st.gScore nb.1 (some (gc + nb.2.cost))).map Prod.fst = _
        rw [assocSet_keys _ _ _ (by rw [he2]; rfl)]
        exact hA.keysG
      · intro v q hq
        rw [hlkg] at hq
        by_cases hv : v = nb.1
        · rw [if_pos hv] at hq
          have h2 : some (gc + nb.2.cost) = some q := by injection hq
          have h3 : gc + nb.2.cost = q := by injection h2
          rw [← h3, hv]
          exact hwalknb
        · rw [if_neg hv] at hq
          exact hA.soundG v q hq
      · show (assocSet st.gScore nb.1 (some (gc + nb.2.cost))).lookup s = _
        rw [hlkg, if_neg (Ne.symm hnbs)]
        exact hA.srcG
      · intro v u hvu
        have hvu2 : (if v = nb.1 then some current
            else st.cameFrom.lookup v) = some u := by
          rw [← hlkc]
          exact hvu
        by_cases hv : v = nb.1
        · rw [if_pos hv] at hvu2
          have h2 : current = u := by injection hvu2
          subst h2
          refine ⟨gc + nb.2.cost, gc, nb.2, ?_, ?_, ?_, le_refl _⟩
          · rw [hlkg, if_pos hv]
          · rw [hlkg, if_neg (Ne.symm hnbcur)]
            exact he
          · rw [hv]
            exact hnb
        · rw [if_neg hv] at hvu2
          obtain ⟨qv, qu, ee, h1, h2, h3, h4⟩ := hA.linkJ v u hvu2
          by_cases hu : u = nb.1
          · have hqu : e2 = some qu := by
              rw [hu, he2] at h2
              injection h2
            have hlt := hlt_of qu hqu
            exact ⟨qv, gc + nb.2.cost, ee,
              by rw [hlkg, if_neg hv]; exact h1,
              by rw [hlkg, if_pos hu], h3, by linarith⟩
          · exact ⟨qv, qu, ee,
              by rw [hlkg, if_neg hv]; exact h1,
              by rw [hlkg, if_neg hu]; exact h2, h3, h4⟩
      · intro v hv
        by_cases hveq : v = nb.1
        · subst hveq
          refine ⟨nb.1 :: lc, hnewseg,
            List.nodup_cons.mpr ⟨hnb_not_lc, hcnd⟩, ?_⟩
          intro x hx
          rw [hlkc x]
          by_cases hxx : x = nb.1
          · rw [if_pos hxx]; rfl
          · rw [if_neg hxx]
            rcases List.mem_cons.mp hx with h5 | h5
            · exact absurd h5 hxx
            · exact hckeys x h5
        · have hv2 : (st.cameFrom.lookup v).isSome := by
            rw [hlkc v, if_neg hveq] at hv
            exact hv
          obtain ⟨lv, hvseg, hvnd, hvkeys⟩ := hA.chainD v hv2
          by_cases hmem2 : nb.1 ∈ lv
          · obtain ⟨l1, l2, heql, hseg1, hseg2⟩ := seg_split hvseg hmem2
            have hndl : (l1 ++ l2).Nodup := heql ▸ hvnd
            obtain ⟨hnd1, hnd2, hdisj⟩ := List.nodup_append.mp hndl
            obtain ⟨l2b, rfl⟩ : ∃ l2b, l2 = nb.1 :: l2b := by
              rcases seg_head hseg2 with ⟨heq2, _⟩ | h2
              · exact absurd heq2 hnbs
              · exact h2
            have hnb_not_l1 : nb.1 ∉ l1 :=
              fun hx => hdisj hx (List.mem_cons_self _ _)
            have hdis_lc : ∀ x ∈ l1, x ∉ lc := by
              intro x hx1 hx2
              obtain ⟨qx, qe1, hqx, hqe1, hge⟩ :=
                seg_lower hnn hA.linkJ hseg1 x hx1
              have hq1 : e2 = some qe1 := by
                rw [he2] at hqe1
                injection hqe1
              have hlt := hlt_of qe1 hq1
              obtain ⟨qx2, hqx2, hle2⟩ := hcupper x hx2
              have hqq : qx = qx2 := by
                rw [hqx] at hqx2
                have hh : some qx = some qx2 := by injection hqx2
                injection hh
              linarith
            have hl1lift : Seg (assocSet st.cameFrom nb.1 current) v nb.1 l1 :=
              seg_lift hseg1 hnb_not_l1
            refine ⟨l1 ++ (nb.1 :: lc), seg_glue hl1lift hnewseg, ?_, ?_⟩
            · rw [List.nodup_append]
              refine ⟨hnd1, List.nodup_cons.mpr ⟨hnb_not_lc, hcnd⟩, ?_⟩
              intro x hx1 hx2
              rcases List.mem_cons.mp hx2 with rfl | hx3
              · exact hnb_not_l1 hx1
              · exact hdis_lc x hx1 hx3
            · intro x hx
              rw [hlkc x]
              by_cases hxx : x = nb.1
              · rw [if_pos hxx]; rfl
              · rw [if_neg hxx]
                rcases List.mem_append.mp hx with h5 | h5
                · exact hvkeys x
                    (by rw [heql]; exact List.mem_append.mpr (Or.inl h5))
                · rcases List.mem_cons.mp h5 with rfl | h6
                  · exact absurd rfl hxx
                  · exact hckeys x h6
          · refine ⟨lv, seg_lift hvseg hmem2, hvnd, ?_⟩
            intro x hx
            rw [hlkc x]
            by_cases hxx : x = nb.1
            · rw [if_pos hxx]; rfl
            · rw [if_neg hxx]
              exact hvkeys x hx
      · show (assocSet st.cameFrom nb.1 current).lookup s = none
        rw [hlkc, if_neg (Ne.symm hnbs)]
        exact hA.rootC
      · intro x hx
        rcases assocSet_keys_sub _ _ _ _ hx with h5 | rfl
        · exact hA.keysK x h5
        · exact hnb1
      · intro dp hdp
        rcases List.mem_append.mp hdp with h5 | h5
        · obtain ⟨hid, hor⟩ := hA.pqP dp h5
          refine ⟨hid, ?_⟩
          rcases hor with h6 | h6
          · exact Or.inl h6
          · refine Or.inr ?_
            rw [hlkc]
            by_cases hxx : dp.2 = nb.1
            · rw [if_pos hxx]; rfl
            · rw [if_neg hxx]
              exact h6
        · have h6 : dp = (gc + nb.2.cost + heurA t nb.1, nb.1) := by
            simpa using h5
          rw [h6]
          exact ⟨hnb1, Or.inr (by rw [hlkc, if_pos rfl]; rfl)⟩
      · show (assocSet st.cameFrom nb.1 current).lookup current = _
        rw [hlkc, if_neg (Ne.symm hnbcur)]
      · show (assocSet st.gScore nb.1 (some (gc + nb.2.cost))).lookup
            current = _
        rw [hlkg, if_neg (Ne.symm hnbcur)]
    · rw [if_neg hrel]
      exact ⟨hA, rfl, rfl⟩

theorem astarFold_spec {g : Graph} {s t current : Int}
    (hnn : NonnegCosts g) (hcl : ClosedAdj g) :
    ∀ (l : List (Int × Edge)) (st : AState),
    (∀ p ∈ l, p ∈ g.getNeighbors current) →
    AInv g s st → current ∈ g.getAllNodeIds →
    (current = s ∨ (st.cameFrom.lookup current).isSome) →
    AInv g s (l.foldl (astarRelax g t current) st) := by
  intro l
  induction l with
  | nil =>
      intro st _ hA _ _
      exact hA
  | cons p rest ih =>
      intro st hl hA hcur hcs
      obtain ⟨hA1, hcf1, _⟩ :=
        astarRelax_spec hnn hcl hA hcur hcs (hl p (List.mem_cons_self _ _))
      rw [List.foldl_cons]
      apply ih _ (fun q hq => hl q (List.mem_cons_of_mem _ hq)) hA1 hcur
      rcases hcs with h | h
      · exact Or.inl h
      · exact Or.inr (by rw [hcf1]; exact h)

theorem astarLoop_succ_none {g : Graph} {t : Int} {fuel : Nat} {st : AState}
    (hpop : popMin st.pq = none) : astarLoop g t (fuel + 1) st = [] := by
  rw [astarLoop, hpop]

theorem astarLoop_succ_vis {g : Graph} {t : Int} {fuel : Nat} {st : AState}
    {dq : ℚ} {cur : Int} {rest : List (ℚ × Int)}
    (hpop : popMin st.pq = some ((dq, cur), rest))
    (hvis : st.visited cur = true) :
    astarLoop g t (fuel + 1) st = astarLoop g t fuel { st with pq := rest } := by
  rw [astarLoop, hpop]
  dsimp only
  rw [if_pos hvis]

theorem astarLoop_succ_target {g : Graph} {t : Int} {fuel : Nat} {st : AState}
    {dq : ℚ} {rest : List (ℚ × Int)}
    (hpop : popMin st.pq = some ((dq, t), rest))
    (hvis : st.visited t = false) :
    astarLoop g t (fuel + 1) st =
      (reconstructFrom st.cameFrom (st.cameFrom.length + 2) t).reverse := by
  rw [astarLoop, hpop]
  dsimp only
  rw [if_neg (by rw [hvis]; exact Bool.false_ne_true), if_pos rfl]

theorem astarLoop_succ_expand {g : Graph} {t : Int} {fuel : Nat} {st : AState}
    {dq : ℚ} {cur : Int} {rest : List (ℚ × Int)}
    (hpop : popMin st.pq = some ((dq, cur), rest))
    (hvis : st.visited cur = false) (hne : cur ≠ t) :
    astarLoop g t (fuel + 1) st =
      astarLoop g t fuel ((g.getNeighbors cur).foldl (astarRelax g t cur)
        { st with
            visited := fun x => if x = cur then true else st.visited x,
            pq := rest }) := by
  rw [astarLoop, hpop]
  dsimp only
  rw [if_neg (by rw [hvis]; exact Bool.false_ne_true), if_neg hne]

theorem astarLoop_lower {g : Graph} {s t : Int}
    (hnn : NonnegCosts g) (hcl : ClosedAdj g)
    (hneg : (-1 : Int) ∉ g.getAllNodeIds) :
    ∀ (fuel : Nat) (st : AState), AInv g s st →
      astarLoop g t fuel st = [] ∨
      ∃ c, Walk g s t c ∧ sumEdgeCosts g (astarLoop g t fuel st) = c ∧
        (astarLoop g t fuel st).head? = some s ∧
        (astarLoop g t fuel st).getLast? = some t := by
  intro fuel
  induction fuel with
  | zero =>
      intro st _
      exact Or.inl rfl
  | succ fuel ih =>
      intro st hA
      rcases hpop : popMin st.pq with _ | ⟨⟨dq, cur⟩, rest⟩
      · rw [astarLoop_succ_none hpop]
        exact Or.inl rfl
      · obtain ⟨hmem, hrest, hminpq⟩ := popMin_spec hpop
        by_cases hvis : st.visited cur = true
        · rw [astarLoop_succ_vis hpop hvis]
          apply ih
          refine ⟨hA.keysG, hA.soundG, hA.srcG, hA.linkJ, hA.chainD,
            hA.rootC, hA.keysK, ?_⟩
          intro dp hdp
          have hdp2 : dp ∈ removeFirst (dq, cur) st.pq := by
            rw [← hrest]
            exact hdp
          exact hA.pqP dp (removeFirst_subset dp hdp2)
        · have hvfalse : st.visited cur = false := Bool.not_eq_true _ |>.mp hvis
          have hcurP := hA.pqP (dq, cur) hmem
          by_cases htgt : cur = t
          · subst htgt
            rw [astarLoop_succ_target hpop hvfalse]
            right
            have hsids : s ∈ g.getAllNodeIds := by
              have h1 : s ∈ st.gScore.map Prod.fst :=
                lookup_isSome_keys (by rw [hA.srcG]; rfl)
              rw [hA.keysG] at h1
              exact h1
            have hs_ne : s ≠ -1 := fun h => hneg (h ▸ hsids)
            rcases hcurP.2 with heq | hsome
            · subst heq
              have hrec : reconstructFrom st.cameFrom
                  (st.cameFrom.length + 2) cur = [cur] := by
                rw [reconstructFrom_succ, if_neg hs_ne, hA.rootC,
                  reconstructFrom_neg1]
              rw [hrec]
              exact ⟨0, Walk.refl, rfl, rfl, rfl⟩
            · obtain ⟨l, hseg, hnd, hkeys⟩ := hA.chainD cur hsome
              have hedge : ∀ v u, st.cameFrom.lookup v = some u →
                  ∃ e, ((v : Int), e) ∈ g.getNeighbors u := by
                intro v u hvu
                obtain ⟨qv, qu, e, _, _, he, _⟩ := hA.linkJ v u hvu
                exact ⟨e, he⟩
              have hxne : ∀ x ∈ l, x ≠ -1 := by
                intro x hx h
                apply hneg
                rw [← h]
                exact hA.keysK x (lookup_isSome_keys (hkeys x hx))
              have hlen : l.length + 2 ≤ st.cameFrom.length + 2 := by
                have hsub : l ⊆ st.cameFrom.map Prod.fst :=
                  fun x hx => lookup_isSome_keys (hkeys x hx)
                have hsp := (List.subperm_of_subset hnd hsub).length_le
                have hmaplen : (st.cameFrom.map Prod.fst).length =
                    st.cameFrom.length := List.length_map _ _
                omega
              have hrec := reconstructFrom_seg hA.rootC hs_ne hseg hxne
                (st.cameFrom.length + 2) hlen
              rw [hrec]
              have hwalk := seg_walk hedge hseg
              refine ⟨_, hwalk, rfl, ?_, ?_⟩
              · rw [List.head?_reverse]
                exact List.getLast?_concat _
              · rw [List.getLast?_reverse]
                rcases seg_head hseg with ⟨heq, rfl⟩ | ⟨l2, rfl⟩
                · rw [heq]
                  rfl
                · rfl
          · rw [astarLoop_succ_expand hpop hvfalse htgt]
            apply ih
            have hA1 : AInv g s { st with
                visited := fun x => if x = cur then true else st.visited x,
                pq := rest } := by
              refine ⟨hA.keysG, hA.soundG, hA.srcG, hA.linkJ, hA.chainD,
                hA.rootC, hA.keysK, ?_⟩
              intro dp hdp
              have hdp2 : dp ∈ removeFirst (dq, cur) st.pq := by
                rw [← hrest]
                exact hdp
              exact hA.pqP dp (removeFirst_subset dp hdp2)
            exact astarFold_spec hnn hcl (g.getNeighbors cur) _
              (fun p hp => hp) hA1 hcurP.1 hcurP.2

theorem astar_init_inv {g : Graph} {s t : Int} (hs : s ∈ g.getAllNodeIds) :
    AInv g s ⟨assocSet (g.getAllNodeIds.map
        (fun nodeId => (nodeId, (none : EDist)))) s (some 0),
      [], fun _ => false, [(heurA t s, s)]⟩ := by
  have hbase : (g.getAllNodeIds.map
      (fun nodeId => (nodeId, (none : EDist)))).lookup s = some none :=
    lookup_initMap_mem hs
  have hlk : ∀ x, (assocSet (g.getAllNodeIds.map
      (fun nodeId => (nodeId, (none : EDist)))) s (some 0)).lookup x =
      if x = s then some (some 0)
      else (g.getAllNodeIds.map
        (fun nodeId => (nodeId, (none : EDist)))).lookup x :=
    fun x => lookup_assocSet _ _ _ _
  refine ⟨?_, ?_, ?_, ?_, ?_, ?_, ?_, ?_⟩
  · rw [assocSet_keys _ _ _ (by rw [hbase]; rfl)]
    exact initMap_keys _
  · intro v q hvq
    rw [hlk] at hvq
    by_cases hv : v = s
    · rw [if_pos hv] at hvq
      have h2 : some (0 : ℚ) = some q := by injection hvq
      have h3 : (0 : ℚ) = q := by injection h2
      rw [← h3, hv]
      exact Walk.refl
    · rw [if_neg hv] at hvq
      exact absurd (lookup_initMap hvq) (by simp)
  · rw [hlk, if_pos rfl]
  · intro v u hvu
    simp [List.lookup] at hvu
  · intro v hv
    simp [List.lookup] at hv
  · rfl
  · intro x hx
    simp at hx
  · intro dp hdp
    have h1 : dp = (heurA t s, s) := by simpa using hdp
    rw [h1]
    exact ⟨hs, Or.inl rfl⟩

/-- C8 (amended): whenever `astar` returns a nonempty path — on a graph
with non-negative edge costs, every adjacency target declared as a node,
the source declared, and no node id equal to the `-1` reconstruction
sentinel — that path leads from the source to the target and its total
edge cost is at least the optimal cost `dijkstra` computes.  Equality as
claimed does not hold even for an admissible heuristic, because the
closed set is never reopened: see `astar_suboptimal_path`. -/
theorem astar_cost_ge_dijkstra (g : Graph) (s t : Int)
    (hnn : NonnegCosts g) (hcl : ClosedAdj g) (hs : s ∈ g.getAllNodeIds)
    (hneg : (-1 : Int) ∉ g.getAllNodeIds) (hne : astar g s t ≠ []) :
    ∃ q, (dijkstra g s).lookup t = some (some q) ∧
      q ≤ sumEdgeCosts g (astar g s t) ∧
      (astar g s t).head? = some s ∧ (astar g s t).getLast? = some t := by
  have hA0 := astar_init_inv (g := g) (s := s) (t := t) hs
  have hres := astarLoop_lower (t := t) hnn hcl hneg (dijkstraFuel g s)
    ⟨assocSet (g.getAllNodeIds.map
        (fun nodeId => (nodeId, (none : EDist)))) s (some 0),
      [], fun _ => false, [(heurA t s, s)]⟩ hA0
  have hd : astar g s t = astarLoop g t (dijkstraFuel g s)
      ⟨assocSet (g.getAllNodeIds.map
          (fun nodeId => (nodeId, (none : EDist)))) s (some 0),
        [], fun _ => false, [(heurA t s, s)]⟩ := rfl
  rw [← hd] at hres
  rcases hres with hnil | ⟨c, hw, hsum, hhead, hlast⟩
  · exact absurd hnil hne
  · obtain ⟨q, hq, hmin⟩ := (dijkstra_correct hnn hcl hs).2.2.2 t ⟨c, hw⟩
    exact ⟨q, hq, by rw [hsum]; exact hmin.2 c hw, hhead, hlast⟩

/-- C8 witness: the amended theorem at the concrete graph `gL`, source 0,
target 1, whose returned path is [0, 1]. -/
theorem astar_cost_ge_dijkstra_witness :
    ∃ q, (dijkstra gL 0).lookup 1 = some (some q) ∧
      q ≤ sumEdgeCosts gL (astar gL 0 1) ∧
      (astar gL 0 1).head? = some 0 ∧ (astar gL 0 1).getLast? = some 1 := by
  apply astar_cost_ge_dijkstra gL 0 1 (nonnegCosts_of_adj (by decide))
    (closedAdj_of_adj (by decide)) (by decide) (by decide)
  intro h
  have ha : astar gL 0 1 = [0, 1] := by
    norm_num [astar, astarLoop, astarRelax, reconstructFrom, heurA, popMin,
      pqMinFrom, removeFirst, dmGetD, assocSet, eLt, pairLt, dijkstraFuel,
      dijkstraIds, degOf, Graph.getNeighbors, Graph.getAllNodeIds, gL,
      Graph.addNode, Graph.addEdge, emptyGraph, adjEnsure, adjAppend,
      List.lookup, List.dedup, List.flatMap] <;> rfl
  rw [ha] at h
  simp at h

/-- A lower bound on every walk cost out of `v` from a potential that
satisfies the triangle inequality along every adjacency entry. -/
theorem walk_ge_potential {g : Graph} (f : Int → ℚ)
    (htri : ∀ u : Int, ∀ p ∈ g.getNeighbors u, f u ≤ f p.1 + p.2.cost) :
    ∀ {v x : Int} {c : ℚ}, Walk g v x c → f v ≤ c + f x := by
  intro v x c hw
  induction hw with
  | refl => simp
  | @step u c0 p hw2 hp ih =>
      have h1 := htri u p hp
      linarith

/-- An upper bound on a potential along every walk from `s`, from the
reversed triangle inequality. -/
theorem walk_le_potential {g : Graph} (f : Int → ℚ) {s : Int} (hs : f s ≤ 0)
    (htri : ∀ u : Int, ∀ p ∈ g.getNeighbors u, f p.1 ≤ f u + p.2.cost) :
    ∀ {x : Int} {c : ℚ}, Walk g s x c → f x ≤ c := by
  intro x c hw
  induction hw with
  | refl => exact hs
  | @step u c0 p hw2 hp ih =>
      have h1 := htri u p hp
      linarith

theorem adj_pairwise {g : Graph} {P : Int → Int × Edge → Prop}
    (h : ∀ kl ∈ g.adj, ∀ p ∈ kl.2, P kl.1 p) :
    ∀ u : Int, ∀ p ∈ g.getNeighbors u, P u p := by
  intro u p hp
  rw [Graph.getNeighbors] at hp
  rcases hl : g.adj.lookup u with _ | l
  · rw [hl] at hp
    simp at hp
  · rw [hl] at hp
    exact h (u, l) (lookup_mem hl) p hp

/-- Counterexample graph for C8: target 0; the direct detour 5→2→0 (cost
4+2) reaches the target before the cheap chain 5→4→1→0 (cost 1+1+3)
finishes propagating, because the heuristic |id−0| closes node 1 early via
the expensive direct edge, and closed nodes are never reopened. -/
def gA : Graph :=
  emptyGraph.addNode ⟨5, 0, 0⟩ |>.addNode ⟨4, 0, 0⟩ |>.addNode ⟨1, 0, 0⟩
    |>.addNode ⟨2, 0, 0⟩ |>.addNode ⟨0, 0, 0⟩
    |>.addEdge ⟨5, 4, 1, 1⟩ |>.addEdge ⟨4, 1, 1, 1⟩ |>.addEdge ⟨5, 1, 4, 1⟩
    |>.addEdge ⟨5, 2, 4, 1⟩ |>.addEdge ⟨2, 0, 2, 1⟩ |>.addEdge ⟨1, 0, 3, 1⟩

/-- A potential dominating the heuristic |·−0| and satisfying the triangle
inequality on `gA`: it certifies admissibility without running dijkstra. -/
def phiA : Int → ℚ := fun w =>
  if w = 5 then 5 else if w = 4 then 4 else if w = 1 then 3 else
  if w = 2 then 2 else 0

/-- The true distances from source 5 in `gA`, as a potential certifying
the lower bound 5 for every walk from 5 to 0. -/
def psiA : Int → ℚ := fun w =>
  if w = 5 then 0 else if w = 4 then 1 else if w = 1 then 2 else
  if w = 2 then 4 else if w = 0 then 5 else 0

set_option maxHeartbeats 1000000 in
theorem astar_gA_eval : astar gA 5 0 = [5, 2, 0] := by
  have hn5 : gA.getNeighbors 5 =
      [(4, ⟨5, 4, 1, 1⟩), (1, ⟨5, 1, 4, 1⟩), (2, ⟨5, 2, 4, 1⟩)] := rfl
  have hn1 : gA.getNeighbors 1 =
      [(4, ⟨4, 1, 1, 1⟩), (5, ⟨5, 1, 4, 1⟩), (0, ⟨1, 0, 3, 1⟩)] := rfl
  have hn4 : gA.getNeighbors 4 = [(5, ⟨5, 4, 1, 1⟩), (1, ⟨4, 1, 1, 1⟩)] := rfl
  have hn2 : gA.getNeighbors 2 = [(5, ⟨5, 2, 4, 1⟩), (0, ⟨2, 0, 2, 1⟩)] := rfl
  have h0 : astar gA 5 0 = astarLoop gA 0 13
      ⟨[(5, some 0), (4, none), (1, none), (2, none), (0, none)], [],
        fun _ => false, [(5, 5)]⟩ := rfl
  rw [h0]
  have hpop1 : popMin [((5 : ℚ), (5 : Int))] = some ((5, 5), []) := by decide
  rw [astarLoop_succ_expand hpop1 (by decide) (by decide)]
  show astarLoop gA 0 12 ((gA.getNeighbors 5).foldl (astarRelax gA 0 5)
    ⟨[(5, some 0), (4, none), (1, none), (2, none), (0, none)], [],
      fun x => if x = 5 then true else false, []⟩) = [5, 2, 0]
  have hf1 : (gA.getNeighbors 5).foldl (astarRelax gA 0 5)
      ⟨[(5, some 0), (4, none), (1, none), (2, none), (0, none)], [],
        fun x => if x = 5 then true else false, []⟩ =
      ⟨[(5, some 0), (4, some 1), (1, some 4), (2, some 4), (0, none)],
        [(4, 5), (1, 5), (2, 5)], fun x => if x = 5 then true else false,
        [(5, 4), (5, 1), (6, 2)]⟩ := by
    rw [hn5]
    norm_num [astarRelax, dmGetD, assocSet, eLt, heurA, lookup_cons]
  rw [hf1]
  have hpop2 : popMin [((5 : ℚ), (4 : Int)), (5, 1), (6, 2)] =
      some ((5, 1), [(5, 4), (6, 2)]) := by decide
  rw [astarLoop_succ_expand hpop2 (by decide) (by decide)]
  show astarLoop gA 0 11 ((gA.getNeighbors 1).foldl (astarRelax gA 0 1)
    ⟨[(5, some 0), (4, some 1), (1, some 4), (2, some 4), (0, none)],
      [(4, 5), (1, 5), (2, 5)],
      fun x => if x = 1 then true else if x = 5 then true else false,
      [(5, 4), (6, 2)]⟩) = [5, 2, 0]
  have hf2 : (gA.getNeighbors 1).foldl (astarRelax gA 0 1)
      ⟨[(5, some 0), (4, some 1), (1, some 4), (2, some 4), (0, none)],
        [(4, 5), (1, 5), (2, 5)],
        fun x => if x = 1 then true else if x = 5 then true else false,
        [(5, 4), (6, 2)]⟩ =
      ⟨[(5, some 0), (4, some 1), (1, some 4), (2, some 4), (0, some 7)],
        [(4, 5), (1, 5), (2, 5), (0, 1)],
        fun x => if x = 1 then true else if x = 5 then true else false,
        [(5, 4), (6, 2), (7, 0)]⟩ := by
    rw [hn1]
    norm_num [astarRelax, dmGetD, assocSet, eLt, heurA, lookup_cons]
  rw [hf2]
  have hpop3 : popMin [((5 : ℚ), (4 : Int)), (6, 2), (7, 0)] =
      some ((5, 4), [(6, 2), (7, 0)]) := by decide
  rw [astarLoop_succ_expand hpop3 (by decide) (by decide)]
  show astarLoop gA 0 10 ((gA.getNeighbors 4).foldl (astarRelax gA 0 4)
    ⟨[(5, some 0), (4, some 1), (1, some 4), (2, some 4), (0, some 7)],
      [(4, 5), (1, 5), (2, 5), (0, 1)],
      fun x => if x = 4 then true else if x = 1 then true else
        if x = 5 then true else false,
      [(6, 2), (7, 0)]⟩) = [5, 2, 0]
  have hf3 : (gA.getNeighbors 4).foldl (astarRelax gA 0 4)
      ⟨[(5, some 0), (4, some 1), (1, some 4), (2, some 4), (0, some 7)],
        [(4, 5), (1, 5), (2, 5), (0, 1)],
        fun x => if x = 4 then true else if x = 1 then true else
          if x = 5 then true else false,
        [(6, 2), (7, 0)]⟩ =
      ⟨[(5, some 0), (4, some 1), (1, some 2), (2, some 4), (0, some 7)],
        [(4, 5), (1, 4), (2, 5), (0, 1)],
        fun x => if x = 4 then true else if x = 1 then true else
          if x = 5 then true else false,
        [(6, 2), (7, 0), (3, 1)]⟩ := by
    rw [hn4]
    norm_num [astarRelax, dmGetD, assocSet, eLt, heurA, lookup_cons]
  rw [hf3]
  have hpop4 : popMin [((6 : ℚ), (2 : Int)), (7, 0), (3, 1)] =
      some ((3, 1), [(6, 2), (7, 0)]) := by decide
  rw [astarLoop_succ_vis hpop4 (by decide)]
  show astarLoop gA 0 9
    ⟨[(5, some 0), (4, some 1), (1, some 2), (2, some 4), (0, some 7)],
      [(4, 5), (1, 4), (2, 5), (0, 1)],
      fun x => if x = 4 then true else if x = 1 then true else
        if x = 5 then true else false,
      [(6, 2), (7, 0)]⟩ = [5, 2, 0]
  have hpop5 : popMin [((6 : ℚ), (2 : Int)), (7, 0)] =
      some ((6, 2), [(7, 0)]) := by decide
  rw [astarLoop_succ_expand hpop5 (by decide) (by decide)]
  show astarLoop gA 0 8 ((gA.getNeighbors 2).foldl (astarRelax gA 0 2)
    ⟨[(5, some 0), (4, some 1), (1, some 2), (2, some 4), (0, some 7)],
      [(4, 5), (1, 4), (2, 5), (0, 1)],
      fun x => if x = 2 then true else if x = 4 then true else
        if x = 1 then true else if x = 5 then true else false,
      [(7, 0)]⟩) = [5, 2, 0]
  have hf5 : (gA.getNeighbors 2).foldl (astarRelax gA 0 2)
      ⟨[(5, some 0), (4, some 1), (1, some 2), (2, some 4), (0, some 7)],
        [(4, 5), (1, 4), (2, 5), (0, 1)],
        fun x => if x = 2 then true else if x = 4 then true else
          if x = 1 then true else if x = 5 then true else false,
        [(7, 0)]⟩ =
      ⟨[(5, some 0), (4, some 1), (1, some 2), (2, some 4), (0, some 6)],
        [(4, 5), (1, 4), (2, 5), (0, 2)],
        fun x => if x = 2 then true else if x = 4 then true else
          if x = 1 then true else if x = 5 then true else false,
        [(7, 0), (6, 0)]⟩ := by
    rw [hn2]
    norm_num [astarRelax, dmGetD, assocSet, eLt, heurA, lookup_cons]
  rw [hf5]
  have hpop6 : popMin [((7 : ℚ), (0 : Int)), (6, 0)] =
      some ((6, 0), [(7, 0)]) := by decide
  rw [astarLoop_succ_target hpop6 (by decide)]
  decide

set_option maxHeartbeats 1000000 in
/-- C8 counterexample: on `gA` the heuristic |id − 0| never overestimates
the true remaining cost to the target 0 from any node of the graph, both
endpoints are present and the costs are non-negative, yet `astar gA 5 0`
returns the path [5, 2, 0] of total edge cost 6 while the optimal cost —
the value `dijkstra` computes for the target — is 5: an admissible but
inconsistent heuristic plus a closed set that is never reopened loses the
optimal route, refuting the claimed equality. -/
theorem astar_suboptimal_path :
    NonnegCosts gA ∧ (5 : Int) ∈ gA.getAllNodeIds ∧
    (0 : Int) ∈ gA.getAllNodeIds ∧
    (∀ v ∈ gA.getAllNodeIds, ∀ c, Walk gA v 0 c → heurA 0 v ≤ c) ∧
    astar gA 5 0 = [5, 2, 0] ∧ sumEdgeCosts gA [5, 2, 0] = 6 ∧
    (dijkstra gA 5).lookup 0 = some (some 5) ∧ (6 : ℚ) ≠ 5 := by
  have hadjA : gA.adj =
      [(5, [(4, ⟨5, 4, 1, 1⟩), (1, ⟨5, 1, 4, 1⟩), (2, ⟨5, 2, 4, 1⟩)]),
       (4, [(5, ⟨5, 4, 1, 1⟩), (1, ⟨4, 1, 1, 1⟩)]),
       (1, [(4, ⟨4, 1, 1, 1⟩), (5, ⟨5, 1, 4, 1⟩), (0, ⟨1, 0, 3, 1⟩)]),
       (2, [(5, ⟨5, 2, 4, 1⟩), (0, ⟨2, 0, 2, 1⟩)]),
       (0, [(2, ⟨2, 0, 2, 1⟩), (1, ⟨1, 0, 3, 1⟩)])] := rfl
  have hnn : NonnegCosts gA := nonnegCosts_of_adj (by decide)
  have hcl : ClosedAdj gA := closedAdj_of_adj (by decide)
  have htri_phi : ∀ u : Int, ∀ p ∈ gA.getNeighbors u,
      phiA u ≤ phiA p.1 + p.2.cost := by
    apply adj_pairwise
    intro kl hkl p hp
    rw [hadjA] at hkl
    fin_cases hkl <;> fin_cases hp <;> norm_num [phiA]
  have htri_psi : ∀ u : Int, ∀ p ∈ gA.getNeighbors u,
      psiA p.1 ≤ psiA u + p.2.cost := by
    apply adj_pairwise
    intro kl hkl p hp
    rw [hadjA] at hkl
    fin_cases hkl <;> fin_cases hp <;> norm_num [psiA]
  have h54 : ((4 : Int), (⟨5, 4, 1, 1⟩ : Edge)) ∈ gA.getNeighbors 5 := by
    decide
  have h41 : ((1 : Int), (⟨4, 1, 1, 1⟩ : Edge)) ∈ gA.getNeighbors 4 := by
    decide
  have h10 : ((0 : Int), (⟨1, 0, 3, 1⟩ : Edge)) ∈ gA.getNeighbors 1 := by
    decide
  have hwalk5 : Walk gA 5 0 (0 + 1 + 1 + 3) :=
    Walk.step (Walk.step (Walk.step Walk.refl h54) h41) h10
  refine ⟨hnn, by decide, by decide, ?_, astar_gA_eval, ?_, ?_, by norm_num⟩
  · intro v hv c hw
    have h1 : phiA v ≤ c + phiA 0 := walk_ge_potential phiA htri_phi hw
    have hids : gA.getAllNodeIds = [5, 4, 1, 2, 0] := by decide
    rw [hids] at hv
    fin_cases hv <;>
      (norm_num [phiA] at h1; norm_num [heurA]; linarith)
  · norm_num [sumEdgeCosts, routePairs, Graph.getEdgeCost, Graph.getNeighbors,
      hadjA, lookup_cons]
  · obtain ⟨q, hq, hmin⟩ := (dijkstra_correct hnn hcl (by decide)).2.2.2 0
      ⟨0 + 1 + 1 + 3, hwalk5⟩
    have hub : q ≤ 5 := by
      have h2 := hmin.2 _ hwalk5
      linarith
    have hlb : (5 : ℚ) ≤ q := by
      have h1 := walk_le_potential psiA (by norm_num [psiA]) htri_psi hmin.1
      norm_num [psiA] at h1
      exact h1
    have hq5 : q = 5 := le_antisymm hub hlb
    rw [hq5] at hq
    exact hq

end DisasterRelief
